import Mathlib

/- Verification of the keyed lookup structures implemented in src/main.cpp:
   a linear scan, an unbalanced binary search tree (BinarySearchTree),
   a red-black tree (RedBlackTree) and a chained hash table (HashTable).
   Every definition below is a shallow embedding of the corresponding C++
   function; pointer-linked tree nodes become inductive trees, the parent
   chain used by the red-black fixup becomes an explicit list of frames,
   and operations that would dereference a null pointer or divide by zero
   in C++ return none. -/

/-- Record stored in every structure (struct Object): identifier, search key
    (name) and a numeric payload that no lookup operation ever inspects. -/
structure Object where
  id : Nat
  name : String
  value : Int
deriving DecidableEq

/-- linearSearch: collect, in order, every record whose name equals the key. -/
def linearSearch : List Object → String → List Object
  | [], _ => []
  | o :: rest, key =>
    if o.name = key then o :: linearSearch rest key else linearSearch rest key

theorem linearSearch_append (a b : List Object) (key : String) :
    linearSearch (a ++ b) key = linearSearch a key ++ linearSearch b key := by
  induction a with
  | nil => simp [linearSearch]
  | cons o rest ih =>
    by_cases h : o.name = key <;> simp [linearSearch, h, ih]

theorem linearSearch_eq_nil (xs : List Object) (key : String)
    (h : ∀ o ∈ xs, ¬ o.name = key) : linearSearch xs key = [] := by
  induction xs with
  | nil => rfl
  | cons o rest ih =>
    have ho := h o (by simp)
    simp only [linearSearch, if_neg ho]
    exact ih fun o' ho' => h o' (by simp [ho'])

theorem linearSearch_eq_self (xs : List Object) (key : String)
    (h : ∀ o ∈ xs, o.name = key) : linearSearch xs key = xs := by
  induction xs with
  | nil => rfl
  | cons o rest ih =>
    have ho := h o (by simp)
    simp only [linearSearch, if_pos ho]
    rw [ih fun o' ho' => h o' (by simp [ho'])]

theorem linearSearch_sublist (xs : List Object) (key : String) :
    ∀ o ∈ linearSearch xs key, o ∈ xs ∧ o.name = key := by
  induction xs with
  | nil => simp [linearSearch]
  | cons x rest ih =>
    by_cases h : x.name = key
    · simp only [linearSearch, if_pos h]
      intro o ho
      rcases List.mem_cons.mp ho with h' | h'
      · exact ⟨by simp [h'], by rw [h']; exact h⟩
      · exact ⟨by simp [(ih o h').1], (ih o h').2⟩
    · simp only [linearSearch, if_neg h]
      intro o ho
      exact ⟨by simp [(ih o ho).1], (ih o ho).2⟩

/-- Node shape of the unbalanced binary search tree (BinarySearchTree::Node):
    a key, all records sharing that key, and two children. -/
inductive BSTree
  | nil
  | node (key : String) (values : List Object) (left right : BSTree)
deriving DecidableEq

/-- BinarySearchTree::insert — descend comparing the record's name with node
    keys; append to the values of an equal-key node; create a leaf at a
    missing child. -/
def BinarySearchTree.insert : BSTree → Object → BSTree
  | BSTree.nil, obj => BSTree.node obj.name [obj] BSTree.nil BSTree.nil
  | BSTree.node k vs l r, obj =>
    if obj.name = k then BSTree.node k (vs ++ [obj]) l r
    else if obj.name < k then BSTree.node k vs (BinarySearchTree.insert l obj) r
    else BSTree.node k vs l (BinarySearchTree.insert r obj)

/-- BinarySearchTree::search — descend comparing the key, return the values of
    the matching node, or the empty list at a missing child. -/
def BinarySearchTree.search : BSTree → String → List Object
  | BSTree.nil, _ => []
  | BSTree.node k vs l r, key =>
    if key = k then vs
    else if key < k then BinarySearchTree.search l key
    else BinarySearchTree.search r key

/-- Sequential insertion of a record list, as the measurement loop does. -/
def BinarySearchTree.insertAll : BSTree → List Object → BSTree
  | t, [] => t
  | t, o :: rest => BinarySearchTree.insertAll (BinarySearchTree.insert t o) rest

def BinarySearchTree.fromList (data : List Object) : BSTree :=
  BinarySearchTree.insertAll BSTree.nil data

/-- All keys of the tree satisfy a predicate. -/
def BSTree.allKeys (P : String → Prop) : BSTree → Prop
  | BSTree.nil => True
  | BSTree.node k _ l r => P k ∧ BSTree.allKeys P l ∧ BSTree.allKeys P r

/-- Binary-search-tree ordering: left-subtree keys below the node key, right
    above, at every node. -/
def BSTree.Ordered : BSTree → Prop
  | BSTree.nil => True
  | BSTree.node k _ l r =>
    BSTree.allKeys (fun x => x < k) l ∧ BSTree.allKeys (fun x => k < x) r ∧
    BSTree.Ordered l ∧ BSTree.Ordered r

def BSTree.numNodes : BSTree → Nat
  | BSTree.nil => 0
  | BSTree.node _ _ l r => BSTree.numNodes l + BSTree.numNodes r + 1

theorem BSTree.allKeys_insert (P : String → Prop) (t : BSTree) (obj : Object)
    (ht : BSTree.allKeys P t) (hobj : P obj.name) :
    BSTree.allKeys P (BinarySearchTree.insert t obj) := by
  induction t with
  | nil => exact ⟨hobj, trivial, trivial⟩
  | node k vs l r ihl ihr =>
    obtain ⟨hk, hl, hr⟩ := ht
    by_cases h1 : obj.name = k
    · simp only [BinarySearchTree.insert, if_pos h1]
      exact ⟨hk, hl, hr⟩
    · by_cases h2 : obj.name < k
      · simp only [BinarySearchTree.insert, if_neg h1, if_pos h2]
        exact ⟨hk, ihl hl, hr⟩
      · simp only [BinarySearchTree.insert, if_neg h1, if_neg h2]
        exact ⟨hk, hl, ihr hr⟩

theorem BSTree.ordered_insert (t : BSTree) (obj : Object)
    (ht : BSTree.Ordered t) : BSTree.Ordered (BinarySearchTree.insert t obj) := by
  induction t with
  | nil => exact ⟨trivial, trivial, trivial, trivial⟩
  | node k vs l r ihl ihr =>
    obtain ⟨hbl, hbr, hl, hr⟩ := ht
    by_cases h1 : obj.name = k
    · simp only [BinarySearchTree.insert, if_pos h1]
      exact ⟨hbl, hbr, hl, hr⟩
    · by_cases h2 : obj.name < k
      · simp only [BinarySearchTree.insert, if_neg h1, if_pos h2]
        exact ⟨BSTree.allKeys_insert _ l obj hbl h2, hbr, ihl hl, hr⟩
      · have h3 : k < obj.name := lt_of_le_of_ne (not_lt.mp h2) (Ne.symm h1)
        simp only [BinarySearchTree.insert, if_neg h1, if_neg h2]
        exact ⟨hbl, BSTree.allKeys_insert _ r obj hbr h3, hl, ihr hr⟩

theorem BSTree.ordered_insertAll (data : List Object) (t : BSTree)
    (ht : BSTree.Ordered t) : BSTree.Ordered (BinarySearchTree.insertAll t data) := by
  induction data generalizing t with
  | nil => exact ht
  | cons o rest ih => exact ih _ (BSTree.ordered_insert t o ht)

/-- Inserting one record shifts a search result by exactly that record when the
    keys match, and not at all otherwise.  This holds for every tree, ordered
    or not, because insert and search take the same comparison path. -/
theorem BinarySearchTree.search_insert (t : BSTree) (obj : Object) (key : String) :
    BinarySearchTree.search (BinarySearchTree.insert t obj) key =
      BinarySearchTree.search t key ++ (if obj.name = key then [obj] else []) := by
  induction t with
  | nil =>
    by_cases h : key = obj.name
    · subst h
      simp [BinarySearchTree.insert, BinarySearchTree.search]
    · have h' : ¬ obj.name = key := fun hh => h hh.symm
      rcases lt_trichotomy key obj.name with hlt | heq | hgt
      · simp only [BinarySearchTree.insert, BinarySearchTree.search, if_neg h, if_pos hlt,
          if_neg h', List.append_nil]
      · exact absurd heq h
      · simp only [BinarySearchTree.insert, BinarySearchTree.search, if_neg h,
          if_neg (lt_asymm hgt), if_neg h', List.append_nil]
  | node k vs l r ihl ihr =>
    by_cases h1 : obj.name = k
    · -- append to this node
      simp only [BinarySearchTree.insert, if_pos h1]
      by_cases h2 : key = k
      · have hobj : obj.name = key := by rw [h1, h2]
        simp only [BinarySearchTree.search, if_pos h2, if_pos hobj]
      · have hobj : ¬ obj.name = key := by rw [h1]; exact fun hh => h2 hh.symm
        simp only [BinarySearchTree.search, if_neg h2, if_neg hobj, List.append_nil]
    · by_cases h2 : obj.name < k
      · simp only [BinarySearchTree.insert, if_neg h1, if_pos h2]
        by_cases h3 : key = k
        · have hobj : ¬ obj.name = key := by rw [h3]; exact h1
          simp only [BinarySearchTree.search, if_pos h3, if_neg hobj, List.append_nil]
        · by_cases h4 : key < k
          · simp only [BinarySearchTree.search, if_neg h3, if_pos h4]
            exact ihl
          · have hk : k < key := lt_of_le_of_ne (not_lt.mp h4) (fun hh => h3 hh.symm)
            have hobj : ¬ obj.name = key := fun hh => absurd (hh ▸ h2) (lt_asymm hk)
            simp only [BinarySearchTree.search, if_neg h3, if_neg h4, if_neg hobj,
              List.append_nil]
      · have h2' : k < obj.name := lt_of_le_of_ne (not_lt.mp h2) (Ne.symm h1)
        simp only [BinarySearchTree.insert, if_neg h1, if_neg h2]
        by_cases h3 : key = k
        · have hobj : ¬ obj.name = key := by rw [h3]; exact h1
          simp only [BinarySearchTree.search, if_pos h3, if_neg hobj, List.append_nil]
        · by_cases h4 : key < k
          · have hobj : ¬ obj.name = key := fun hh => absurd (hh ▸ h2') (lt_asymm h4)
            simp only [BinarySearchTree.search, if_neg h3, if_pos h4, if_neg hobj,
              List.append_nil]
          · simp only [BinarySearchTree.search, if_neg h3, if_neg h4]
            exact ihr

theorem BinarySearchTree.search_insertAll (data : List Object) (t : BSTree) (key : String) :
    BinarySearchTree.search (BinarySearchTree.insertAll t data) key =
      BinarySearchTree.search t key ++ linearSearch data key := by
  induction data generalizing t with
  | nil => simp [BinarySearchTree.insertAll, linearSearch]
  | cons o rest ih =>
    simp only [BinarySearchTree.insertAll]
    rw [ih, BinarySearchTree.search_insert]
    by_cases h : o.name = key
    · simp [linearSearch, h, List.append_assoc]
    · simp [linearSearch, h]

theorem BinarySearchTree.search_fromList (data : List Object) (key : String) :
    BinarySearchTree.search (BinarySearchTree.fromList data) key = linearSearch data key := by
  rw [BinarySearchTree.fromList, BinarySearchTree.search_insertAll]
  simp [BinarySearchTree.search]

/-- Inserting records that all carry the same key keeps a single-node tree,
    appending each record to that node's values. -/
theorem BinarySearchTree.insertAll_same_key (key : String) (rs : List Object)
    (h : ∀ r ∈ rs, r.name = key) (vs : List Object) :
    BinarySearchTree.insertAll (BSTree.node key vs BSTree.nil BSTree.nil) rs =
      BSTree.node key (vs ++ rs) BSTree.nil BSTree.nil := by
  induction rs generalizing vs with
  | nil => simp [BinarySearchTree.insertAll]
  | cons r rest ih =>
    have hr : r.name = key := h r (by simp)
    simp only [BinarySearchTree.insertAll, BinarySearchTree.insert, if_pos hr]
    rw [ih (fun r' hr' => h r' (by simp [hr'])) (vs ++ [r])]
    simp

/-- Width of the unsigned accumulator of HashTable::hashFunction
    (unsigned long, 64-bit wraparound). -/
def UINT64 : Nat := 2 ^ 64

/-- Byte sequence of a key, exactly as the C++ loop
    for (unsigned char c : key) sees it. -/
def strBytes (s : String) : List Nat := s.toUTF8.toList.map (fun b => b.toNat)

/-- Accumulator loop of HashTable::hashFunction: for each byte c,
    h = (h * 131 + c) % size, computed in the 64-bit unsigned accumulator
    (wraparound modelled by % 2^64). -/
def hashAux (size : Nat) : Nat → List Nat → Nat
  | h, [] => h
  | h, c :: rest => hashAux size ((h * 131 + c) % UINT64 % size) rest

/-- HashTable::hashFunction — polynomial rolling hash with P = 131 over the
    key's bytes, reduced modulo the table size at every character. -/
def HashTable.hashFunction (size : Nat) (key : String) : Nat :=
  hashAux size 0 (strBytes key)

/-- Guarded hash: with size = 0 the per-character % size divides by zero,
    which is undefined behaviour in C++; it is modelled as failure.  (For an
    empty key the loop body never runs, but the resulting index 0 would then
    be used on an empty bucket vector, which faults as well.) -/
def hashFunctionChecked (size : Nat) (key : String) : Option Nat :=
  if size = 0 then none else some (HashTable.hashFunction size key)

/-- HashTable state: the fixed bucket count, the bucket chains, and the
    collision counter. -/
structure HashTable where
  size : Nat
  buckets : List (List Object)
  collisionCount : Nat
deriving DecidableEq

/-- HashTable::HashTable(tableSize) — initializer list only: store the size,
    allocate tableSize empty buckets, zero the collision counter.  There is no
    validation of tableSize. -/
def HashTable.new (tableSize : Nat) : HashTable :=
  HashTable.mk tableSize (List.replicate tableSize []) 0

/-- Construction outcome of the C++ constructor: it has no failure path of any
    kind, so every bucket count - including 0 - yields a table. -/
def HashTable.construct (tableSize : Nat) : Except String HashTable :=
  Except.ok (HashTable.new tableSize)

/-- HashTable::insert — hash the name; if the target bucket is non-empty count
    a collision; append the record to the bucket unconditionally.  Out-of-range
    access (impossible for a well-formed table) and hashing with size 0 fault. -/
def HashTable.insert (ht : HashTable) (obj : Object) : Option HashTable :=
  match hashFunctionChecked ht.size obj.name with
  | none => none
  | some idx =>
    if idx < ht.buckets.length then
      some (HashTable.mk ht.size
        (ht.buckets.set idx (ht.buckets.getD idx [] ++ [obj]))
        (if (ht.buckets.getD idx []).isEmpty then ht.collisionCount
         else ht.collisionCount + 1))
    else none

/-- HashTable::search — hash the key, scan that bucket linearly, return the
    records whose name equals the key. -/
def HashTable.search (ht : HashTable) (key : String) : Option (List Object) :=
  match hashFunctionChecked ht.size key with
  | none => none
  | some idx =>
    if idx < ht.buckets.length then some (linearSearch (ht.buckets.getD idx []) key)
    else none

/-- HashTable::getCollisionCount. -/
def HashTable.getCollisionCount (ht : HashTable) : Nat := ht.collisionCount

/-- Sequential insertion of a record list, as the measurement loop does. -/
def HashTable.insertAll : HashTable → List Object → Option HashTable
  | ht, [] => some ht
  | ht, o :: rest =>
    match HashTable.insert ht o with
    | none => none
    | some ht' => HashTable.insertAll ht' rest

def HashTable.fromList (tableSize : Nat) (data : List Object) : Option HashTable :=
  HashTable.insertAll (HashTable.new tableSize) data

/-- Records of a list whose name hashes to bucket i. -/
def bucketSel (size i : Nat) : List Object → List Object
  | [] => []
  | o :: rest =>
    if HashTable.hashFunction size o.name = i then o :: bucketSel size i rest
    else bucketSel size i rest

/-- Reference hash of the specification: "h = 0; for each byte b in key:
    h = (h * 131 + b) mod bucket_count", with an unsigned fixed-width
    accumulator wrapping around modulo 2^64. -/
def specHash (bucketCount : Nat) (key : String) : Nat :=
  (strBytes key).foldl (fun h b => (h * 131 + b) % UINT64 % bucketCount) 0

/-- Pure per-character recurrence of the spec without wraparound, meaningful in
    the regime where no intermediate value can reach 2^64. -/
def pureHashAux (bucketCount : Nat) : Nat → List Nat → Nat
  | h, [] => h
  | h, c :: rest => pureHashAux bucketCount ((h * 131 + c) % bucketCount) rest

def pureHash (bucketCount : Nat) (key : String) : Nat :=
  pureHashAux bucketCount 0 (strBytes key)

theorem hashAux_lt (size : Nat) (hs : 1 ≤ size) :
    ∀ bytes h, h < size → hashAux size h bytes < size := by
  intro bytes
  induction bytes with
  | nil => intro h hh; exact hh
  | cons c rest ih =>
    intro h hh
    exact ih _ (Nat.mod_lt _ hs)

theorem hashFunction_lt (size : Nat) (key : String) (hs : 1 ≤ size) :
    HashTable.hashFunction size key < size :=
  hashAux_lt size hs (strBytes key) 0 hs

theorem hashAux_eq_foldl (size : Nat) :
    ∀ bytes h, hashAux size h bytes =
      bytes.foldl (fun a b => (a * 131 + b) % UINT64 % size) h := by
  intro bytes
  induction bytes with
  | nil => intro h; rfl
  | cons c rest ih => intro h; simp only [hashAux, List.foldl_cons]; exact ih _

theorem hashFunction_eq_specHash (size : Nat) (key : String) :
    HashTable.hashFunction size key = specHash size key :=
  hashAux_eq_foldl size (strBytes key) 0

theorem strBytes_lt_256 (key : String) : ∀ b ∈ strBytes key, b < 256 := by
  intro b hb
  rcases List.mem_map.mp hb with ⟨u, _, rfl⟩
  exact u.toNat_lt_size

theorem hashAux_eq_pure (size : Nat) (hs : 1 ≤ size) (hsmall : 131 * size + 125 ≤ UINT64) :
    ∀ bytes, (∀ b ∈ bytes, b < 256) → ∀ h, h < size →
      hashAux size h bytes = pureHashAux size h bytes := by
  intro bytes
  induction bytes with
  | nil => intro _ h _; rfl
  | cons c rest ih =>
    intro hb h hh
    have hc : c < 256 := hb c (by simp)
    have hbound : h * 131 + c < UINT64 := by
      have h1 : h * 131 ≤ (size - 1) * 131 := Nat.mul_le_mul_right _ (by omega)
      have h2 : (size - 1) * 131 = 131 * size - 131 := by
        rw [Nat.sub_mul, Nat.mul_comm]
      omega
    simp only [hashAux, pureHashAux, Nat.mod_eq_of_lt hbound]
    exact ih (fun b hb' => hb b (by simp [hb'])) _ (Nat.mod_lt _ hs)

theorem hashFunction_eq_pure (size : Nat) (key : String) (hs : 1 ≤ size)
    (hsmall : 131 * size + 125 ≤ UINT64) :
    HashTable.hashFunction size key = pureHash size key :=
  hashAux_eq_pure size hs hsmall (strBytes key) (fun b hb =>
    lt_of_lt_of_le (strBytes_lt_256 key b hb) (by norm_num)) 0 hs

theorem getD_set_self : ∀ (l : List (List Object)) (i : Nat) (x : List Object),
    i < l.length → (l.set i x).getD i [] = x
  | [], i, _, h => absurd h (by simp)
  | _ :: _, 0, _, _ => rfl
  | _ :: rest, i + 1, x, h =>
    getD_set_self rest i x (Nat.lt_of_succ_lt_succ (by simpa using h))

theorem getD_set_other : ∀ (l : List (List Object)) (i j : Nat) (x : List Object),
    i ≠ j → (l.set i x).getD j [] = l.getD j []
  | [], _, _, _, _ => rfl
  | _ :: _, 0, 0, _, h => absurd rfl h
  | _ :: _, 0, _ + 1, _, _ => rfl
  | _ :: _, _ + 1, 0, _, _ => rfl
  | _ :: rest, i + 1, j + 1, x, h => getD_set_other rest i j x (by omega)

theorem getD_replicate : ∀ (n j : Nat),
    (List.replicate n ([] : List Object)).getD j [] = []
  | 0, _ => rfl
  | _ + 1, 0 => rfl
  | n + 1, j + 1 => getD_replicate n j

/-- Unfolded form of a successful insert on a well-formed table. -/
theorem HashTable.insert_eq (ht : HashTable) (obj : Object)
    (hs : 1 ≤ ht.size) (hlen : ht.buckets.length = ht.size) :
    HashTable.insert ht obj =
      some (HashTable.mk ht.size
        (ht.buckets.set (HashTable.hashFunction ht.size obj.name)
          (ht.buckets.getD (HashTable.hashFunction ht.size obj.name) [] ++ [obj]))
        (if (ht.buckets.getD (HashTable.hashFunction ht.size obj.name) []).isEmpty
         then ht.collisionCount else ht.collisionCount + 1)) := by
  have hz : ¬ ht.size = 0 := by omega
  have hidx : HashTable.hashFunction ht.size obj.name < ht.buckets.length := by
    rw [hlen]; exact hashFunction_lt ht.size obj.name hs
  simp only [HashTable.insert, hashFunctionChecked, if_neg hz, if_pos hidx]

/-- Unfolded form of a successful search on a well-formed table. -/
theorem HashTable.search_eq (ht : HashTable) (key : String)
    (hs : 1 ≤ ht.size) (hlen : ht.buckets.length = ht.size) :
    HashTable.search ht key =
      some (linearSearch (ht.buckets.getD (HashTable.hashFunction ht.size key) []) key) := by
  have hz : ¬ ht.size = 0 := by omega
  have hidx : HashTable.hashFunction ht.size key < ht.buckets.length := by
    rw [hlen]; exact hashFunction_lt ht.size key hs
  simp only [HashTable.search, hashFunctionChecked, if_neg hz, if_pos hidx]

/-- Bucket contents after inserting a whole record list: every bucket grows by
    exactly the records whose name hashes to it, in insertion order. -/
theorem HashTable.insertAll_char (data : List Object) (ht : HashTable)
    (hs : 1 ≤ ht.size) (hlen : ht.buckets.length = ht.size) :
    ∃ ht', HashTable.insertAll ht data = some ht' ∧ ht'.size = ht.size ∧
      ht'.buckets.length = ht.size ∧
      ∀ j, ht'.buckets.getD j [] = ht.buckets.getD j [] ++ bucketSel ht.size j data := by
  induction data generalizing ht with
  | nil =>
    exact ⟨ht, rfl, rfl, hlen, fun j => by simp [bucketSel]⟩
  | cons o rest ih =>
    have hins := HashTable.insert_eq ht o hs hlen
    set idx := HashTable.hashFunction ht.size o.name with hidxdef
    set ht1 : HashTable := HashTable.mk ht.size
      (ht.buckets.set idx (ht.buckets.getD idx [] ++ [o]))
      (if (ht.buckets.getD idx []).isEmpty then ht.collisionCount
       else ht.collisionCount + 1) with hht1
    have h1len : ht1.buckets.length = ht1.size := by
      simp [hht1, List.length_set, hlen]
    have h1s : 1 ≤ ht1.size := hs
    obtain ⟨ht', hall, hsz, hln, hbk⟩ := ih ht1 h1s h1len
    refine ⟨ht', ?_, hsz, hln, ?_⟩
    · simp only [HashTable.insertAll, hins]
      exact hall
    · intro j
      rw [hbk j]
      by_cases hj : idx = j
      · subst hj
        have : ht1.buckets.getD idx [] = ht.buckets.getD idx [] ++ [o] := by
          simp only [hht1]
          exact getD_set_self _ _ _ (by rw [hlen]; exact hashFunction_lt ht.size o.name hs)
        rw [this]
        simp [bucketSel, hidxdef]
      · have : ht1.buckets.getD j [] = ht.buckets.getD j [] := by
          simp only [hht1]
          exact getD_set_other _ _ _ _ hj
        rw [this]
        have hsel : bucketSel ht.size j (o :: rest) = bucketSel ht.size j rest := by
          simp only [bucketSel, hidxdef]
          rw [if_neg hj]
        rw [hsel]

/-- Filtering a bucket's records by a key whose hash is that bucket recovers
    exactly the records with that key. -/
theorem linearSearch_bucketSel (size : Nat) (key : String) (data : List Object) :
    linearSearch (bucketSel size (HashTable.hashFunction size key) data) key =
      linearSearch data key := by
  induction data with
  | nil => rfl
  | cons o rest ih =>
    by_cases hname : o.name = key
    · have : HashTable.hashFunction size o.name = HashTable.hashFunction size key := by
        rw [hname]
      simp only [bucketSel, if_pos this, linearSearch, if_pos hname, ih]
    · by_cases hh : HashTable.hashFunction size o.name = HashTable.hashFunction size key
      · simp only [bucketSel, if_pos hh, linearSearch, if_neg hname, ih]
      · simp only [bucketSel, if_neg hh, linearSearch, if_neg hname, ih]

/-- Search over a freshly built table agrees with the linear scan, record for
    record and in the same order. -/
theorem HashTable.fromList_search (nb : Nat) (hnb : 1 ≤ nb) (data : List Object)
    (key : String) :
    ∃ ht, HashTable.fromList nb data = some ht ∧
      HashTable.search ht key = some (linearSearch data key) := by
  have hnew_len : (HashTable.new nb).buckets.length = (HashTable.new nb).size := by
    simp [HashTable.new]
  obtain ⟨ht, hall, hsz, hln, hbk⟩ :=
    HashTable.insertAll_char data (HashTable.new nb) hnb hnew_len
  refine ⟨ht, hall, ?_⟩
  have hsz' : ht.size = nb := hsz
  have hs' : 1 ≤ ht.size := by omega
  have hl' : ht.buckets.length = ht.size := by rw [hln, hsz']; rfl
  rw [HashTable.search_eq ht key hs' hl']
  have hb : ht.buckets.getD (HashTable.hashFunction nb key) [] =
      bucketSel nb (HashTable.hashFunction nb key) data := by
    have hthis := hbk (HashTable.hashFunction nb key)
    simpa [HashTable.new, getD_replicate] using hthis
  rw [hsz', hb, linearSearch_bucketSel]

/-- Once the target bucket is non-empty, every further insert whose name hashes
    to it counts one collision. -/
theorem HashTable.insertAll_collide (rs : List Object) (i : Nat) :
    ∀ ht, 1 ≤ ht.size → ht.buckets.length = ht.size →
    (∀ r ∈ rs, HashTable.hashFunction ht.size r.name = i) →
    ¬ (ht.buckets.getD i []).isEmpty →
    ∃ ht', HashTable.insertAll ht rs = some ht' ∧
      ht'.collisionCount = ht.collisionCount + rs.length := by
  induction rs with
  | nil => exact fun ht _ _ _ _ => ⟨ht, rfl, rfl⟩
  | cons r rest ih =>
    intro ht hs hlen hhash hne
    have hins := HashTable.insert_eq ht r hs hlen
    have hri : HashTable.hashFunction ht.size r.name = i := hhash r (by simp)
    rw [hri] at hins
    set ht1 : HashTable := HashTable.mk ht.size
      (ht.buckets.set i (ht.buckets.getD i [] ++ [r]))
      (if (ht.buckets.getD i []).isEmpty then ht.collisionCount
       else ht.collisionCount + 1) with hht1
    have h1len : ht1.buckets.length = ht1.size := by
      simp [hht1, List.length_set, hlen]
    have h1bucket : ht1.buckets.getD i [] = ht.buckets.getD i [] ++ [r] := by
      simp only [hht1]
      exact getD_set_self _ _ _ (by rw [hlen]; exact hri ▸ hashFunction_lt ht.size r.name hs)
    have h1ne : ¬ (ht1.buckets.getD i []).isEmpty := by
      rw [h1bucket]
      simp
    obtain ⟨ht', hall, hcc⟩ := ih ht1 hs h1len
      (fun r' hr' => hhash r' (by simp [hr'])) h1ne
    refine ⟨ht', ?_, ?_⟩
    · simp only [HashTable.insertAll, hins]
      exact hall
    · rw [hcc]
      simp only [hht1, if_neg hne]
      simp [List.length_cons]
      omega

/-- Node color of the red-black tree (RedBlackTree::Color). -/
inductive Color
  | RED
  | BLACK
deriving DecidableEq

/-- Node shape of the red-black tree (RedBlackTree::Node): key, records with
    that key, color and two children.  The parent pointer of the C++ node is
    represented by the frame list of the zipper below. -/
inductive RBTree
  | nil
  | node (key : String) (values : List Object) (color : Color) (left right : RBTree)
deriving DecidableEq

/-- Which child of its parent the current node is. -/
inductive Dir
  | left
  | right
deriving DecidableEq

/-- One parent on the chain from the current node to the root, as insertFix
    follows parent pointers: the side the current node hangs on (dir), the
    parent's key, values and color, and the parent's other child (sib). -/
structure Frame where
  dir : Dir
  key : String
  vals : List Object
  color : Color
  sib : RBTree
deriving DecidableEq

/-- Rebuild the parent node with the current subtree in its hole. -/
def plug (f : Frame) (t : RBTree) : RBTree :=
  match f.dir with
  | Dir.left => RBTree.node f.key f.vals f.color t f.sib
  | Dir.right => RBTree.node f.key f.vals f.color f.sib t

/-- Rebuild the whole tree from a subtree and its parent chain. -/
def zipUp : RBTree → List Frame → RBTree
  | t, [] => t
  | t, f :: rest => zipUp (plug f t) rest

def rootColor : RBTree → Color
  | RBTree.nil => Color.BLACK
  | RBTree.node _ _ c _ _ => c

/-- Recolor the root black (root->color = BLACK at the end of insertFix). -/
def setBlack : RBTree → RBTree
  | RBTree.nil => RBTree.nil
  | RBTree.node k vs _ l r => RBTree.node k vs Color.BLACK l r

/-- RedBlackTree::insertFix.  The C++ loop walks parent pointers upward from
    the inserted node n while n is not the root and n's parent is red; here the
    parent chain is the frame list (innermost parent first).  The three cases
    (red uncle recolor; inner child double rotation; outer child single
    rotation) are translated with the rotations rotateLeft / rotateRight /
    transplant applied to the local subtrees they touch; after a rotation case
    the loop condition is false (the new parent is black), so the result is
    zipped to the root directly.  The two none branches are the places where
    the C++ code would dereference a null pointer: g = p->parent when the red
    parent is the root, and the rotation around a null n. -/
def insertFix : RBTree → List Frame → Option RBTree
  | n, [] => some n
  | n, f :: rest =>
    if f.color = Color.BLACK then some (zipUp n (f :: rest))
    else
      match rest with
      | [] => none
      | g :: rest' =>
        match g.dir with
        | Dir.left =>
          -- p is g's left child; the uncle u is g's right child
          match g.sib with
          | RBTree.node uk uv Color.RED ul ur =>
            -- case 1: red uncle, recolor and continue from g
            insertFix (RBTree.node g.key g.vals Color.RED
              (plug (Frame.mk f.dir f.key f.vals Color.BLACK f.sib) n)
              (RBTree.node uk uv Color.BLACK ul ur)) rest'
          | u =>
            match f.dir with
            | Dir.right =>
              -- case 2 then 3: n is p's right child: rotateLeft(p) then
              -- recolor and rotateRight(g)
              match n with
              | RBTree.nil => none
              | RBTree.node nk nv _ nl nr =>
                some (zipUp (RBTree.node nk nv Color.BLACK
                  (RBTree.node f.key f.vals Color.RED f.sib nl)
                  (RBTree.node g.key g.vals Color.RED nr u)) rest')
            | Dir.left =>
              -- case 3: recolor p black, g red, rotateRight(g)
              some (zipUp (RBTree.node f.key f.vals Color.BLACK n
                (RBTree.node g.key g.vals Color.RED f.sib u)) rest')
        | Dir.right =>
          -- mirror image: p is g's right child; the uncle u is g's left child
          match g.sib with
          | RBTree.node uk uv Color.RED ul ur =>
            insertFix (RBTree.node g.key g.vals Color.RED
              (RBTree.node uk uv Color.BLACK ul ur)
              (plug (Frame.mk f.dir f.key f.vals Color.BLACK f.sib) n)) rest'
          | u =>
            match f.dir with
            | Dir.left =>
              match n with
              | RBTree.nil => none
              | RBTree.node nk nv _ nl nr =>
                some (zipUp (RBTree.node nk nv Color.BLACK
                  (RBTree.node g.key g.vals Color.RED u nl)
                  (RBTree.node f.key f.vals Color.RED nr f.sib)) rest')
            | Dir.right =>
              some (zipUp (RBTree.node f.key f.vals Color.BLACK
                (RBTree.node g.key g.vals Color.RED u f.sib) n) rest')

/-- Descent loop of RedBlackTree::insert: walk down recording the parent
    chain; append on an equal key (and return with no fixup, as the C++ code
    does); at a missing child attach a new red node and run insertFix, then
    force the root black. -/
def insertWalk (obj : Object) : RBTree → List Frame → Option RBTree
  | RBTree.nil, path =>
    (insertFix (RBTree.node obj.name [obj] Color.RED RBTree.nil RBTree.nil) path).map setBlack
  | RBTree.node k vs c l r, path =>
    if obj.name = k then
      some (zipUp (RBTree.node k (vs ++ [obj]) c l r) path)
    else if obj.name < k then
      insertWalk obj l (Frame.mk Dir.left k vs c r :: path)
    else
      insertWalk obj r (Frame.mk Dir.right k vs c l :: path)

/-- RedBlackTree::insert — an empty tree gets a black root directly; otherwise
    descend from the root with an empty parent chain. -/
def RedBlackTree.insert (t : RBTree) (obj : Object) : Option RBTree :=
  match t with
  | RBTree.nil => some (RBTree.node obj.name [obj] Color.BLACK RBTree.nil RBTree.nil)
  | RBTree.node _ _ _ _ _ => insertWalk obj t []

/-- RedBlackTree::search — identical comparison walk to the BST search. -/
def RedBlackTree.search : RBTree → String → List Object
  | RBTree.nil, _ => []
  | RBTree.node k vs _ l r, key =>
    if key = k then vs
    else if key < k then RedBlackTree.search l key
    else RedBlackTree.search r key

/-- Sequential insertion of a record list, as the measurement loop does. -/
def RedBlackTree.insertAll : RBTree → List Object → Option RBTree
  | t, [] => some t
  | t, o :: rest =>
    match RedBlackTree.insert t o with
    | none => none
    | some t' => RedBlackTree.insertAll t' rest

def RedBlackTree.fromList (data : List Object) : Option RBTree :=
  RedBlackTree.insertAll RBTree.nil data

/-- In-order record sequence of the tree. -/
def RBTree.toList : RBTree → List Object
  | RBTree.nil => []
  | RBTree.node _ vs _ l r => RBTree.toList l ++ vs ++ RBTree.toList r

def RBTree.numNodes : RBTree → Nat
  | RBTree.nil => 0
  | RBTree.node _ _ _ l r => RBTree.numNodes l + RBTree.numNodes r + 1

/-- No red node has a red child. -/
def noRR : RBTree → Prop
  | RBTree.nil => True
  | RBTree.node _ _ c l r =>
    (c = Color.RED → rootColor l = Color.BLACK ∧ rootColor r = Color.BLACK) ∧
    noRR l ∧ noRR r

/-- Black height when it is uniform on every root-to-nil path, none otherwise. -/
def bhOpt : RBTree → Option Nat
  | RBTree.nil => some 0
  | RBTree.node _ _ c l r =>
    match bhOpt l, bhOpt r with
    | some a, some b =>
      if a = b then some (if c = Color.BLACK then a + 1 else a) else none
    | _, _ => none

/-- Black-height contribution of a parent of the given color. -/
def frameInc (c : Color) (h : Nat) : Nat :=
  if c = Color.BLACK then h + 1 else h

/-- All keys of the tree satisfy a predicate. -/
def RBTree.allKeys (P : String → Prop) : RBTree → Prop
  | RBTree.nil => True
  | RBTree.node k _ _ l r => P k ∧ RBTree.allKeys P l ∧ RBTree.allKeys P r

/-- Binary-search-tree ordering of the red-black tree. -/
def RBTree.Ordered : RBTree → Prop
  | RBTree.nil => True
  | RBTree.node k _ _ l r =>
    RBTree.allKeys (fun x => x < k) l ∧ RBTree.allKeys (fun x => k < x) r ∧
    RBTree.Ordered l ∧ RBTree.Ordered r

/-- Every record of a node carries that node's key (nodes hold exactly the
    records sharing their key). -/
def nodeKeyInv : RBTree → Prop
  | RBTree.nil => True
  | RBTree.node k vs _ l r =>
    (∀ o ∈ vs, o.name = k) ∧ nodeKeyInv l ∧ nodeKeyInv r

/-- Color of the innermost parent of the chain (RED for the empty chain, so
    that "red frame implies black head of the rest" also forces the rest to be
    non-empty). -/
def headColor : List Frame → Color
  | [] => Color.RED
  | f :: _ => f.color

/-- Constraint a key must satisfy to sit in the hole of the chain. -/
def holeOk : List Frame → String → Prop
  | [], _ => True
  | f :: rest, x =>
    (f.dir = Dir.left → x < f.key) ∧ (f.dir = Dir.right → f.key < x) ∧ holeOk rest x

/-- Red-black side conditions of a parent chain whose hole has black height h:
    each sibling is a valid red-black subtree of matching black height, a red
    parent has a black sibling-child and a black parent above it (so a red
    parent is never the root). -/
def chainInv : List Frame → Nat → Prop
  | [], _ => True
  | f :: rest, h =>
    noRR f.sib ∧ bhOpt f.sib = some h ∧
    (f.color = Color.RED → rootColor f.sib = Color.BLACK) ∧
    (f.color = Color.RED → headColor rest = Color.BLACK) ∧
    chainInv rest (frameInc f.color h)

/-- Ordering side conditions of a parent chain: each sibling is ordered, lies
    on the correct side of its parent key, and both the parent key and the
    sibling keys satisfy the constraints of the remaining chain. -/
def chainOrd : List Frame → Prop
  | [] => True
  | f :: rest =>
    RBTree.Ordered f.sib ∧
    (f.dir = Dir.left → RBTree.allKeys (fun x => f.key < x) f.sib) ∧
    (f.dir = Dir.right → RBTree.allKeys (fun x => x < f.key) f.sib) ∧
    holeOk rest f.key ∧ RBTree.allKeys (holeOk rest) f.sib ∧ chainOrd rest

/-- Node-key side conditions of a parent chain. -/
def chainKeyInv : List Frame → Prop
  | [] => True
  | f :: rest => (∀ o ∈ f.vals, o.name = f.key) ∧ nodeKeyInv f.sib ∧ chainKeyInv rest

theorem color_black_of_ne {c : Color} (h : ¬ c = Color.RED) : c = Color.BLACK := by
  cases c
  · exact absurd rfl h
  · rfl

theorem RBTree.allKeys_mono {P Q : String → Prop} (hpq : ∀ x, P x → Q x) :
    ∀ t, RBTree.allKeys P t → RBTree.allKeys Q t
  | RBTree.nil, _ => trivial
  | RBTree.node k vs c l r, h =>
    ⟨hpq k h.1, RBTree.allKeys_mono hpq l h.2.1, RBTree.allKeys_mono hpq r h.2.2⟩

theorem zipUp_ne_nil : ∀ (path : List Frame) (t : RBTree), t ≠ RBTree.nil →
    zipUp t path ≠ RBTree.nil
  | [], _, h => h
  | f :: rest, t, _ => by
    have hplug : plug f t ≠ RBTree.nil := by
      cases hd : f.dir <;> simp [plug, hd]
    exact zipUp_ne_nil rest (plug f t) hplug

theorem rootColor_plug (f : Frame) (t : RBTree) : rootColor (plug f t) = f.color := by
  cases hd : f.dir <;> simp [plug, hd, rootColor]

theorem zipUp_rootColor_congr : ∀ (path : List Frame) (t1 t2 : RBTree),
    rootColor t1 = rootColor t2 →
    rootColor (zipUp t1 path) = rootColor (zipUp t2 path)
  | [], _, _, h => h
  | f :: rest, t1, t2, _ => by
    simp only [zipUp]
    exact zipUp_rootColor_congr rest _ _ ((rootColor_plug f t1).trans (rootColor_plug f t2).symm)

theorem toList_setBlack (t : RBTree) : (setBlack t).toList = t.toList := by
  cases t <;> rfl

theorem noRR_setBlack (t : RBTree) (h : noRR t) : noRR (setBlack t) := by
  cases t with
  | nil => trivial
  | node k vs c l r => exact ⟨fun hc => Color.noConfusion hc, h.2.1, h.2.2⟩

theorem ordered_setBlack (t : RBTree) (h : RBTree.Ordered t) :
    RBTree.Ordered (setBlack t) := by
  cases t with
  | nil => trivial
  | node k vs c l r => exact h

theorem keyInv_setBlack (t : RBTree) (h : nodeKeyInv t) : nodeKeyInv (setBlack t) := by
  cases t with
  | nil => trivial
  | node k vs c l r => exact h

theorem rootColor_setBlack (t : RBTree) (h : t ≠ RBTree.nil) :
    rootColor (setBlack t) = Color.BLACK := by
  cases t with
  | nil => exact absurd rfl h
  | node k vs c l r => rfl

theorem bhOpt_node_intro {k : String} {vs : List Object} {c : Color} {l r : RBTree}
    {a : Nat} (hl : bhOpt l = some a) (hr : bhOpt r = some a) :
    bhOpt (RBTree.node k vs c l r) = some (frameInc c a) := by
  simp [bhOpt, hl, hr, frameInc]

theorem bhOpt_node_elim {k : String} {vs : List Object} {c : Color} {l r : RBTree}
    {h : Nat} (hh : bhOpt (RBTree.node k vs c l r) = some h) :
    ∃ a, bhOpt l = some a ∧ bhOpt r = some a ∧ h = frameInc c a := by
  simp only [bhOpt] at hh
  split at hh
  · rename_i a b hla hrb
    by_cases hab : a = b
    · subst hab
      rw [if_pos rfl] at hh
      refine ⟨a, hla, hrb, ?_⟩
      have h2 := Option.some.inj hh
      simp only [frameInc]
      exact h2.symm
    · rw [if_neg hab] at hh
      exact absurd hh (by simp)
  · exact absurd hh (by simp)

theorem bhOpt_setBlack (t : RBTree) (h : (bhOpt t).isSome) :
    (bhOpt (setBlack t)).isSome := by
  cases t with
  | nil => simp [setBlack, bhOpt]
  | node k vs c l r =>
    rcases Option.isSome_iff_exists.mp h with ⟨m, hm⟩
    rcases bhOpt_node_elim hm with ⟨a, hl, hr, _⟩
    simp only [setBlack]
    rw [bhOpt_node_intro hl hr]
    rfl

theorem zipUp_toList_decomp : ∀ path : List Frame, ∃ pre post,
    ∀ t : RBTree, (zipUp t path).toList = pre ++ t.toList ++ post := by
  intro path
  induction path with
  | nil => exact ⟨[], [], fun t => by simp [zipUp]⟩
  | cons f rest ih =>
    obtain ⟨pre, post, hp⟩ := ih
    cases hd : f.dir
    · refine ⟨pre, f.vals ++ f.sib.toList ++ post, fun t => ?_⟩
      simp only [zipUp]
      rw [hp]
      simp [plug, hd, RBTree.toList, List.append_assoc]
    · refine ⟨pre ++ f.sib.toList ++ f.vals, post, fun t => ?_⟩
      simp only [zipUp]
      rw [hp]
      simp [plug, hd, RBTree.toList, List.append_assoc]

theorem search_zipUp_holeOk : ∀ (path : List Frame) (t : RBTree) (key : String),
    holeOk path key →
    RedBlackTree.search (zipUp t path) key = RedBlackTree.search t key := by
  intro path
  induction path with
  | nil => intro t key _; rfl
  | cons f rest ih =>
    intro t key h
    obtain ⟨h1, h2, h3⟩ := h
    simp only [zipUp]
    rw [ih _ _ h3]
    cases hd : f.dir
    · have hk : key < f.key := h1 hd
      simp only [plug, hd, RedBlackTree.search, if_neg (ne_of_lt hk), if_pos hk]
    · have hk : f.key < key := h2 hd
      simp only [plug, hd, RedBlackTree.search, if_neg (ne_of_gt hk),
        if_neg (lt_asymm hk)]

theorem search_zipUp_congr : ∀ (path : List Frame) (t1 t2 : RBTree) (key : String),
    RedBlackTree.search t1 key = RedBlackTree.search t2 key →
    RedBlackTree.search (zipUp t1 path) key = RedBlackTree.search (zipUp t2 path) key := by
  intro path
  induction path with
  | nil => intro t1 t2 key h; exact h
  | cons f rest ih =>
    intro t1 t2 key h
    simp only [zipUp]
    refine ih _ _ _ ?_
    by_cases he : key = f.key
    · cases hd : f.dir <;> simp only [plug, hd, RedBlackTree.search, if_pos he]
    · by_cases hlt : key < f.key
      · cases hd : f.dir <;>
          simp only [plug, hd, RedBlackTree.search, if_neg he, if_pos hlt]
        · exact h
      · cases hd : f.dir <;>
          simp only [plug, hd, RedBlackTree.search, if_neg he, if_neg hlt]
        · exact h

theorem zipUp_ordered : ∀ (path : List Frame) (t : RBTree),
    chainOrd path → RBTree.Ordered t → RBTree.allKeys (holeOk path) t →
    RBTree.Ordered (zipUp t path) := by
  intro path
  induction path with
  | nil => intro t _ ht _; exact ht
  | cons f rest ih =>
    intro t hc ht hk
    obtain ⟨hos, hdl, hdr, hhk, hsk, hrest⟩ := hc
    have hkRest : RBTree.allKeys (holeOk rest) t :=
      RBTree.allKeys_mono (fun x hx => hx.2.2) t hk
    cases hd : f.dir
    · have hkt : RBTree.allKeys (fun x => x < f.key) t :=
        RBTree.allKeys_mono (fun x hx => hx.1 hd) t hk
      refine ih (plug f t) hrest ?_ ?_
      · simp only [plug, hd]
        exact ⟨hkt, hdl hd, ht, hos⟩
      · simp only [plug, hd]
        exact ⟨hhk, hkRest, hsk⟩
    · have hkt : RBTree.allKeys (fun x => f.key < x) t :=
        RBTree.allKeys_mono (fun x hx => hx.2.1 hd) t hk
      refine ih (plug f t) hrest ?_ ?_
      · simp only [plug, hd]
        exact ⟨hdr hd, hkt, hos, ht⟩
      · simp only [plug, hd]
        exact ⟨hhk, hsk, hkRest⟩

theorem zipUp_keyInv : ∀ (path : List Frame) (t : RBTree),
    chainKeyInv path → nodeKeyInv t → nodeKeyInv (zipUp t path) := by
  intro path
  induction path with
  | nil => intro t _ ht; exact ht
  | cons f rest ih =>
    intro t hc ht
    obtain ⟨hv, hs, hrest⟩ := hc
    refine ih (plug f t) hrest ?_
    cases hd : f.dir
    · simp only [plug, hd]
      exact ⟨hv, ht, hs⟩
    · simp only [plug, hd]
      exact ⟨hv, hs, ht⟩

theorem zipUp_rb : ∀ (path : List Frame) (t : RBTree) (h : Nat),
    chainInv path h → noRR t → bhOpt t = some h →
    (headColor path = Color.RED → rootColor t = Color.BLACK) →
    noRR (zipUp t path) ∧ (bhOpt (zipUp t path)).isSome := by
  intro path
  induction path with
  | nil =>
    intro t h _ hn hb _
    exact ⟨hn, by simp [zipUp, hb]⟩
  | cons f rest ih =>
    intro t h hc hn hb hhead
    obtain ⟨hns, hbs, hred1, hred2, hrest⟩ := hc
    have hb2 : bhOpt (plug f t) = some (frameInc f.color h) := by
      cases hd : f.dir
      · simp only [plug, hd]
        exact bhOpt_node_intro hb hbs
      · simp only [plug, hd]
        exact bhOpt_node_intro hbs hb
    have hn2 : noRR (plug f t) := by
      cases hd : f.dir
      · simp only [plug, hd]
        exact ⟨fun hc' => ⟨hhead hc', hred1 hc'⟩, hn, hns⟩
      · simp only [plug, hd]
        exact ⟨fun hc' => ⟨hred1 hc', hhead hc'⟩, hns, hn⟩
    have hhead2 : headColor rest = Color.RED → rootColor (plug f t) = Color.BLACK := by
      intro hr
      have hfb : f.color = Color.BLACK := by
        cases hfc : f.color
        · exact Color.noConfusion (hr.symm.trans (hred2 hfc))
        · rfl
      rw [rootColor_plug]
      exact hfb
    simp only [zipUp]
    exact ih (plug f t) (frameInc f.color h) hrest hn2 hb2 hhead2

theorem allKeys_toList_names {P : String → Prop} : ∀ t : RBTree,
    nodeKeyInv t → RBTree.allKeys P t → ∀ o ∈ t.toList, P o.name := by
  intro t
  induction t with
  | nil => intro _ _ o ho; simp [RBTree.toList] at ho
  | node k vs c l r ihl ihr =>
    intro hinv hall o ho
    obtain ⟨hvs, hil, hir⟩ := hinv
    obtain ⟨hk, hal, har⟩ := hall
    simp only [RBTree.toList, List.mem_append] at ho
    rcases ho with (ho | ho) | ho
    · exact ihl hil hal o ho
    · rw [hvs o ho]; exact hk
    · exact ihr hir har o ho

/-- On an ordered tree with the node-key invariant, search returns exactly the
    in-order records carrying the key, in order. -/
theorem RedBlackTree.search_eq_toList : ∀ t : RBTree,
    RBTree.Ordered t → nodeKeyInv t → ∀ key,
    RedBlackTree.search t key = linearSearch t.toList key := by
  intro t
  induction t with
  | nil => intro _ _ key; rfl
  | node k vs c l r ihl ihr =>
    intro hord hinv key
    obtain ⟨hbl, hbr, hol, hor⟩ := hord
    obtain ⟨hvs, hil, hir⟩ := hinv
    have hlt : ∀ o ∈ l.toList, o.name < k := allKeys_toList_names l hil hbl
    have hgt : ∀ o ∈ r.toList, k < o.name := allKeys_toList_names r hir hbr
    simp only [RBTree.toList, linearSearch_append]
    by_cases he : key = k
    · subst he
      rw [linearSearch_eq_nil l.toList key (fun o ho => ne_of_lt (hlt o ho)),
        linearSearch_eq_nil r.toList key (fun o ho => ne_of_gt (hgt o ho)),
        linearSearch_eq_self vs key hvs]
      simp only [RedBlackTree.search, if_pos rfl]
      simp
    · by_cases hl2 : key < k
      · simp only [RedBlackTree.search, if_neg he, if_pos hl2]
        rw [linearSearch_eq_nil vs key
            (fun o ho => by rw [hvs o ho]; exact fun hh => he hh.symm),
          linearSearch_eq_nil r.toList key
            (fun o ho => by
              intro hh
              exact absurd (hh ▸ hgt o ho) (lt_asymm hl2)),
          ihl hol hil key]
        simp
      · have hk2 : k < key := lt_of_le_of_ne (not_lt.mp hl2) (fun hh => he hh.symm)
        simp only [RedBlackTree.search, if_neg he, if_neg hl2]
        rw [linearSearch_eq_nil vs key
            (fun o ho => by rw [hvs o ho]; exact fun hh => he hh.symm),
          linearSearch_eq_nil l.toList key
            (fun o ho => by
              intro hh
              exact absurd (hh ▸ hlt o ho) (lt_asymm hk2)),
          ihr hor hir key]
        simp

theorem zip_toList_congr (rest' : List Frame) (t1 t2 : RBTree)
    (h : t1.toList = t2.toList) :
    (zipUp t1 rest').toList = (zipUp t2 rest').toList := by
  obtain ⟨pre, post, hd⟩ := zipUp_toList_decomp rest'
  rw [hd, hd, h]

/-- Main lemma on insertFix: under the red-black, ordering and node-key
    invariants of the red current subtree and of its parent chain, the fixup
    terminates without touching a null pointer and returns a tree that is
    red-red-free with a uniform black height, ordered, key-consistent, and
    carries exactly the in-order records of the unbalanced rebuild. -/
theorem insertFix_good : ∀ (N : Nat) (path : List Frame), path.length ≤ N →
    ∀ (n : RBTree) (h : Nat),
    rootColor n = Color.RED → noRR n → bhOpt n = some h →
    RBTree.Ordered n → nodeKeyInv n → RBTree.allKeys (holeOk path) n →
    chainInv path h → chainOrd path → chainKeyInv path →
    ∃ t', insertFix n path = some t' ∧ noRR t' ∧ (bhOpt t').isSome ∧
      RBTree.Ordered t' ∧ nodeKeyInv t' ∧ t' ≠ RBTree.nil ∧
      t'.toList = (zipUp n path).toList := by
  intro N
  induction N with
  | zero =>
    intro path hlen n h hroot hn hb hord hkinv hkeys hchain hcord hckey
    have hpath : path = [] := List.eq_nil_of_length_eq_zero (Nat.le_zero.mp hlen)
    subst hpath
    refine ⟨n, rfl, hn, by simp [hb], hord, hkinv, ?_, rfl⟩
    intro hnil
    rw [hnil] at hroot
    exact Color.noConfusion hroot
  | succ N ih =>
    intro path hlen n h hroot hn hb hord hkinv hkeys hchain hcord hckey
    cases path with
    | nil =>
      refine ⟨n, rfl, hn, by simp [hb], hord, hkinv, ?_, rfl⟩
      intro hnil
      rw [hnil] at hroot
      exact Color.noConfusion hroot
    | cons f rest =>
      obtain ⟨hnsib, hbsib, hrs1, hrs2, hchain'⟩ := hchain
      obtain ⟨hosib, hdl, hdr, hhks, hsks, hcord'⟩ := hcord
      obtain ⟨hvf, hksib, hckey'⟩ := hckey
      have hnnil : n ≠ RBTree.nil := fun hnil => by
        rw [hnil] at hroot; exact Color.noConfusion hroot
      by_cases hfb : f.color = Color.BLACK
      · -- the while condition fails at once: rebuild and return
        have hch : chainInv (f :: rest) h := ⟨hnsib, hbsib, hrs1, hrs2, hchain'⟩
        have hco : chainOrd (f :: rest) := ⟨hosib, hdl, hdr, hhks, hsks, hcord'⟩
        have hck : chainKeyInv (f :: rest) := ⟨hvf, hksib, hckey'⟩
        have hz := zipUp_rb (f :: rest) n h hch hn hb
          (fun hr => Color.noConfusion (hfb.symm.trans hr))
        exact ⟨zipUp n (f :: rest), by rw [insertFix.eq_def]; simp [hfb],
          hz.1, hz.2, zipUp_ordered (f :: rest) n hco hord hkeys,
          zipUp_keyInv (f :: rest) n hck hkinv,
          zipUp_ne_nil (f :: rest) n hnnil, rfl⟩
      · have hfr : f.color = Color.RED := by
          cases hfc : f.color
          · rfl
          · exact absurd hfc hfb
        cases rest with
        | nil => exact Color.noConfusion (hrs2 hfr)
        | cons g rest' =>
          obtain ⟨fd, fk, fv, fc, fs⟩ := f
          have hfc : fc = Color.RED := hfr
          subst hfc
          obtain ⟨gd, gk, gv, gc, gs⟩ := g
          have hgc : gc = Color.BLACK := hrs2 rfl
          subst hgc
          have hchainG : chainInv (Frame.mk gd gk gv Color.BLACK gs :: rest') h := hchain'
          obtain ⟨hnu, hbu, hgu1, hgu2, hchainR0⟩ := hchainG
          have hchainR : chainInv rest' (h + 1) := hchainR0
          obtain ⟨hou, hgdl, hgdr, hghk, hgsk, hcordR⟩ := hcord'
          obtain ⟨hvg, hku, hckeyR⟩ := hckey'
          have hlen' : rest'.length ≤ N := by
            simp only [List.length_cons] at hlen
            omega
          have hkeysR : RBTree.allKeys (holeOk rest') n :=
            RBTree.allKeys_mono (fun x hx => hx.2.2.2.2) n hkeys
          have hsksR : RBTree.allKeys (holeOk rest') fs :=
            RBTree.allKeys_mono (fun x hx => hx.2.2) fs hsks
          cases gd with
          | left =>
            have hfkgk : fk < gk := hhks.1 rfl
            by_cases hured : rootColor gs = Color.RED
            · -- case 1: red uncle: recolor p, u black, g red; continue from g
              rcases gs with _ | ⟨uk, uv, uc, ul, ur⟩
              · exact Color.noConfusion hured
              have huc : uc = Color.RED := hured
              subst huc
              obtain ⟨hnuC, hnul, hnur⟩ := hnu
              obtain ⟨a, hbul, hbur, ha⟩ := bhOpt_node_elim hbu
              have ha2 : h = a := ha
              subst ha2
              have hplugRoot :
                  rootColor (plug (Frame.mk fd fk fv Color.BLACK fs) n) = Color.BLACK :=
                rootColor_plug _ n
              have hplugNoRR : noRR (plug (Frame.mk fd fk fv Color.BLACK fs) n) := by
                cases fd
                · exact ⟨fun hc => Color.noConfusion hc, hn, hnsib⟩
                · exact ⟨fun hc => Color.noConfusion hc, hnsib, hn⟩
              have hplugBh :
                  bhOpt (plug (Frame.mk fd fk fv Color.BLACK fs) n) = some (h + 1) := by
                cases fd
                · exact bhOpt_node_intro hb hbsib
                · exact bhOpt_node_intro hbsib hb
              have hubh : bhOpt (RBTree.node uk uv Color.BLACK ul ur) = some (h + 1) :=
                bhOpt_node_intro hbul hbur
              have hkeysG : RBTree.allKeys (fun x => x < gk) n :=
                RBTree.allKeys_mono (fun x hx => hx.2.2.1 rfl) n hkeys
              have hsksG : RBTree.allKeys (fun x => x < gk) fs :=
                RBTree.allKeys_mono (fun x hx => hx.1 rfl) fs hsks
              have hAkeys : RBTree.allKeys (fun x => x < gk)
                  (plug (Frame.mk fd fk fv Color.BLACK fs) n) := by
                cases fd
                · exact ⟨hfkgk, hkeysG, hsksG⟩
                · exact ⟨hfkgk, hsksG, hkeysG⟩
              have hAord : RBTree.Ordered (plug (Frame.mk fd fk fv Color.BLACK fs) n) := by
                cases fd
                · exact ⟨RBTree.allKeys_mono (fun x hx => hx.1 rfl) n hkeys,
                    hdl rfl, hord, hosib⟩
                · exact ⟨hdr rfl,
                    RBTree.allKeys_mono (fun x hx => hx.2.1 rfl) n hkeys, hosib, hord⟩
              have hAki : nodeKeyInv (plug (Frame.mk fd fk fv Color.BLACK fs) n) := by
                cases fd
                · exact ⟨hvf, hkinv, hksib⟩
                · exact ⟨hvf, hksib, hkinv⟩
              have hAkr : RBTree.allKeys (holeOk rest')
                  (plug (Frame.mk fd fk fv Color.BLACK fs) n) := by
                cases fd
                · exact ⟨hhks.2.2, hkeysR, hsksR⟩
                · exact ⟨hhks.2.2, hsksR, hkeysR⟩
              obtain ⟨t', hfix', hn', hb', hord', hki', hne', htl'⟩ :=
                ih rest' hlen'
                  (RBTree.node gk gv Color.RED
                    (plug (Frame.mk fd fk fv Color.BLACK fs) n)
                    (RBTree.node uk uv Color.BLACK ul ur)) (h + 1)
                  rfl
                  ⟨fun _ => ⟨hplugRoot, rfl⟩, hplugNoRR,
                    fun hc => Color.noConfusion hc, hnul, hnur⟩
                  (bhOpt_node_intro hplugBh hubh)
                  ⟨hAkeys, hgdl rfl, hAord, hou⟩
                  ⟨hvg, hAki, hku⟩
                  ⟨hghk, hAkr, hgsk⟩
                  hchainR hcordR hckeyR
              refine ⟨t', hfix', hn', hb', hord', hki', hne', ?_⟩
              rw [htl']
              exact zip_toList_congr rest' _
                (plug (Frame.mk Dir.left gk gv Color.BLACK
                  (RBTree.node uk uv Color.RED ul ur))
                  (plug (Frame.mk fd fk fv Color.RED fs) n))
                (by cases fd <;> simp [plug, RBTree.toList])
            · have hub : rootColor gs = Color.BLACK := color_black_of_ne hured
              cases fd with
              | left =>
                -- case 3: outer child: recolor p black, g red, rotate right at g
                have hstep : insertFix n
                    (Frame.mk Dir.left fk fv Color.RED fs ::
                     Frame.mk Dir.left gk gv Color.BLACK gs :: rest') =
                    some (zipUp (RBTree.node fk fv Color.BLACK n
                      (RBTree.node gk gv Color.RED fs gs)) rest') := by
                  rcases gs with _ | ⟨uk, uv, uc, ul, ur⟩
                  · rfl
                  · cases uc
                    · exact Color.noConfusion hub
                    · rfl
                have hBbh : bhOpt (RBTree.node gk gv Color.RED fs gs) = some h :=
                  bhOpt_node_intro hbsib hbu
                have ht3bh : bhOpt (RBTree.node fk fv Color.BLACK n
                    (RBTree.node gk gv Color.RED fs gs)) = some (h + 1) :=
                  bhOpt_node_intro hb hBbh
                have ht3noRR : noRR (RBTree.node fk fv Color.BLACK n
                    (RBTree.node gk gv Color.RED fs gs)) :=
                  ⟨fun hc => Color.noConfusion hc, hn,
                    fun _ => ⟨hrs1 rfl, hub⟩, hnsib, hnu⟩
                have ht3ord : RBTree.Ordered (RBTree.node fk fv Color.BLACK n
                    (RBTree.node gk gv Color.RED fs gs)) := by
                  refine ⟨RBTree.allKeys_mono (fun x hx => hx.1 rfl) n hkeys,
                    ⟨hfkgk, hdl rfl,
                      RBTree.allKeys_mono (fun x hx => lt_trans hfkgk hx) gs (hgdl rfl)⟩,
                    hord,
                    ⟨RBTree.allKeys_mono (fun x hx => hx.1 rfl) fs hsks,
                      hgdl rfl, hosib, hou⟩⟩
                have ht3ki : nodeKeyInv (RBTree.node fk fv Color.BLACK n
                    (RBTree.node gk gv Color.RED fs gs)) :=
                  ⟨hvf, hkinv, hvg, hksib, hku⟩
                have ht3keys : RBTree.allKeys (holeOk rest')
                    (RBTree.node fk fv Color.BLACK n
                      (RBTree.node gk gv Color.RED fs gs)) :=
                  ⟨hhks.2.2, hkeysR, hghk, hsksR, hgsk⟩
                have hzrb := zipUp_rb rest' _ (h + 1) hchainR ht3noRR ht3bh (fun _ => rfl)
                refine ⟨_, hstep, hzrb.1, hzrb.2,
                  zipUp_ordered rest' _ hcordR ht3ord ht3keys,
                  zipUp_keyInv rest' _ hckeyR ht3ki,
                  zipUp_ne_nil rest' _ (by simp), ?_⟩
                exact zip_toList_congr rest' _
                  (plug (Frame.mk Dir.left gk gv Color.BLACK gs)
                    (plug (Frame.mk Dir.left fk fv Color.RED fs) n))
                  (by simp [plug, RBTree.toList])
              | right =>
                -- case 2 then 3: inner child: rotate left at p, then as above
                rcases n with _ | ⟨nk, nv, nc, nl, nr⟩
                · exact absurd rfl hnnil
                have hnc : nc = Color.RED := hroot
                subst hnc
                obtain ⟨hnC, hnl', hnr'⟩ := hn
                obtain ⟨a, hbnl, hbnr, ha⟩ := bhOpt_node_elim hb
                have ha2 : h = a := ha
                subst ha2
                obtain ⟨hordl, hordr, holn, horn⟩ := hord
                obtain ⟨hvn, hkil, hkir⟩ := hkinv
                obtain ⟨hknk, hknl, hknr⟩ := hkeys
                have hfknk : fk < nk := hknk.2.1 rfl
                have hnkgk : nk < gk := hknk.2.2.1 rfl
                have hstep : insertFix (RBTree.node nk nv Color.RED nl nr)
                    (Frame.mk Dir.right fk fv Color.RED fs ::
                     Frame.mk Dir.left gk gv Color.BLACK gs :: rest') =
                    some (zipUp (RBTree.node nk nv Color.BLACK
                      (RBTree.node fk fv Color.RED fs nl)
                      (RBTree.node gk gv Color.RED nr gs)) rest') := by
                  rcases gs with _ | ⟨uk, uv, uc, ul, ur⟩
                  · rfl
                  · cases uc
                    · exact Color.noConfusion hub
                    · rfl
                have hAbh : bhOpt (RBTree.node fk fv Color.RED fs nl) = some h :=
                  bhOpt_node_intro hbsib hbnl
                have hBbh : bhOpt (RBTree.node gk gv Color.RED nr gs) = some h :=
                  bhOpt_node_intro hbnr hbu
                have ht3bh : bhOpt (RBTree.node nk nv Color.BLACK
                    (RBTree.node fk fv Color.RED fs nl)
                    (RBTree.node gk gv Color.RED nr gs)) = some (h + 1) :=
                  bhOpt_node_intro hAbh hBbh
                have ht3noRR : noRR (RBTree.node nk nv Color.BLACK
                    (RBTree.node fk fv Color.RED fs nl)
                    (RBTree.node gk gv Color.RED nr gs)) :=
                  ⟨fun hc => Color.noConfusion hc,
                    ⟨fun _ => ⟨hrs1 rfl, (hnC rfl).1⟩, hnsib, hnl'⟩,
                    ⟨fun _ => ⟨(hnC rfl).2, hub⟩, hnr', hnu⟩⟩
                have ht3ord : RBTree.Ordered (RBTree.node nk nv Color.BLACK
                    (RBTree.node fk fv Color.RED fs nl)
                    (RBTree.node gk gv Color.RED nr gs)) :=
                  ⟨⟨hfknk,
                      RBTree.allKeys_mono (fun x hx => lt_trans hx hfknk) fs (hdr rfl),
                      hordl⟩,
                    ⟨hnkgk, hordr,
                      RBTree.allKeys_mono (fun x hx => lt_trans hnkgk hx) gs (hgdl rfl)⟩,
                    ⟨hdr rfl,
                      RBTree.allKeys_mono (fun x hx => hx.2.1 rfl) nl hknl,
                      hosib, holn⟩,
                    ⟨RBTree.allKeys_mono (fun x hx => hx.2.2.1 rfl) nr hknr,
                      hgdl rfl, horn, hou⟩⟩
                have ht3ki : nodeKeyInv (RBTree.node nk nv Color.BLACK
                    (RBTree.node fk fv Color.RED fs nl)
                    (RBTree.node gk gv Color.RED nr gs)) :=
                  ⟨hvn, ⟨hvf, hksib, hkil⟩, ⟨hvg, hkir, hku⟩⟩
                have ht3keys : RBTree.allKeys (holeOk rest')
                    (RBTree.node nk nv Color.BLACK
                      (RBTree.node fk fv Color.RED fs nl)
                      (RBTree.node gk gv Color.RED nr gs)) :=
                  ⟨hknk.2.2.2.2,
                    ⟨hhks.2.2, hsksR,
                      RBTree.allKeys_mono (fun x hx => hx.2.2.2.2) nl hknl⟩,
                    ⟨hghk,
                      RBTree.allKeys_mono (fun x hx => hx.2.2.2.2) nr hknr, hgsk⟩⟩
                have hzrb := zipUp_rb rest' _ (h + 1) hchainR ht3noRR ht3bh (fun _ => rfl)
                refine ⟨_, hstep, hzrb.1, hzrb.2,
                  zipUp_ordered rest' _ hcordR ht3ord ht3keys,
                  zipUp_keyInv rest' _ hckeyR ht3ki,
                  zipUp_ne_nil rest' _ (by simp), ?_⟩
                exact zip_toList_congr rest' _
                  (plug (Frame.mk Dir.left gk gv Color.BLACK gs)
                    (plug (Frame.mk Dir.right fk fv Color.RED fs)
                      (RBTree.node nk nv Color.RED nl nr)))
                  (by simp [plug, RBTree.toList])
          | right =>
            have hgkfk : gk < fk := hhks.2.1 rfl
            by_cases hured : rootColor gs = Color.RED
            · -- mirror of case 1: red uncle
              rcases gs with _ | ⟨uk, uv, uc, ul, ur⟩
              · exact Color.noConfusion hured
              have huc : uc = Color.RED := hured
              subst huc
              obtain ⟨hnuC, hnul, hnur⟩ := hnu
              obtain ⟨a, hbul, hbur, ha⟩ := bhOpt_node_elim hbu
              have ha2 : h = a := ha
              subst ha2
              have hplugRoot :
                  rootColor (plug (Frame.mk fd fk fv Color.BLACK fs) n) = Color.BLACK :=
                rootColor_plug _ n
              have hplugNoRR : noRR (plug (Frame.mk fd fk fv Color.BLACK fs) n) := by
                cases fd
                · exact ⟨fun hc => Color.noConfusion hc, hn, hnsib⟩
                · exact ⟨fun hc => Color.noConfusion hc, hnsib, hn⟩
              have hplugBh :
                  bhOpt (plug (Frame.mk fd fk fv Color.BLACK fs) n) = some (h + 1) := by
                cases fd
                · exact bhOpt_node_intro hb hbsib
                · exact bhOpt_node_intro hbsib hb
              have hubh : bhOpt (RBTree.node uk uv Color.BLACK ul ur) = some (h + 1) :=
                bhOpt_node_intro hbul hbur
              have hkeysG : RBTree.allKeys (fun x => gk < x) n :=
                RBTree.allKeys_mono (fun x hx => hx.2.2.2.1 rfl) n hkeys
              have hsksG : RBTree.allKeys (fun x => gk < x) fs :=
                RBTree.allKeys_mono (fun x hx => hx.2.1 rfl) fs hsks
              have hAkeys : RBTree.allKeys (fun x => gk < x)
                  (plug (Frame.mk fd fk fv Color.BLACK fs) n) := by
                cases fd
                · exact ⟨hgkfk, hkeysG, hsksG⟩
                · exact ⟨hgkfk, hsksG, hkeysG⟩
              have hAord : RBTree.Ordered (plug (Frame.mk fd fk fv Color.BLACK fs) n) := by
                cases fd
                · exact ⟨RBTree.allKeys_mono (fun x hx => hx.1 rfl) n hkeys,
                    hdl rfl, hord, hosib⟩
                · exact ⟨hdr rfl,
                    RBTree.allKeys_mono (fun x hx => hx.2.1 rfl) n hkeys, hosib, hord⟩
              have hAki : nodeKeyInv (plug (Frame.mk fd fk fv Color.BLACK fs) n) := by
                cases fd
                · exact ⟨hvf, hkinv, hksib⟩
                · exact ⟨hvf, hksib, hkinv⟩
              have hAkr : RBTree.allKeys (holeOk rest')
                  (plug (Frame.mk fd fk fv Color.BLACK fs) n) := by
                cases fd
                · exact ⟨hhks.2.2, hkeysR, hsksR⟩
                · exact ⟨hhks.2.2, hsksR, hkeysR⟩
              obtain ⟨t', hfix', hn', hb', hord', hki', hne', htl'⟩ :=
                ih rest' hlen'
                  (RBTree.node gk gv Color.RED
                    (RBTree.node uk uv Color.BLACK ul ur)
                    (plug (Frame.mk fd fk fv Color.BLACK fs) n)) (h + 1)
                  rfl
                  ⟨fun _ => ⟨rfl, hplugRoot⟩,
                    ⟨fun hc => Color.noConfusion hc, hnul, hnur⟩, hplugNoRR⟩
                  (bhOpt_node_intro hubh hplugBh)
                  ⟨hgdr rfl, hAkeys, hou, hAord⟩
                  ⟨hvg, hku, hAki⟩
                  ⟨hghk, hgsk, hAkr⟩
                  hchainR hcordR hckeyR
              refine ⟨t', hfix', hn', hb', hord', hki', hne', ?_⟩
              rw [htl']
              exact zip_toList_congr rest' _
                (plug (Frame.mk Dir.right gk gv Color.BLACK
                  (RBTree.node uk uv Color.RED ul ur))
                  (plug (Frame.mk fd fk fv Color.RED fs) n))
                (by cases fd <;> simp [plug, RBTree.toList])
            · have hub : rootColor gs = Color.BLACK := color_black_of_ne hured
              cases fd with
              | right =>
                -- mirror of case 3: outer child: rotate left at g
                have hstep : insertFix n
                    (Frame.mk Dir.right fk fv Color.RED fs ::
                     Frame.mk Dir.right gk gv Color.BLACK gs :: rest') =
                    some (zipUp (RBTree.node fk fv Color.BLACK
                      (RBTree.node gk gv Color.RED gs fs) n) rest') := by
                  rcases gs with _ | ⟨uk, uv, uc, ul, ur⟩
                  · rfl
                  · cases uc
                    · exact Color.noConfusion hub
                    · rfl
                have hBbh : bhOpt (RBTree.node gk gv Color.RED gs fs) = some h :=
                  bhOpt_node_intro hbu hbsib
                have ht3bh : bhOpt (RBTree.node fk fv Color.BLACK
                    (RBTree.node gk gv Color.RED gs fs) n) = some (h + 1) :=
                  bhOpt_node_intro hBbh hb
                have ht3noRR : noRR (RBTree.node fk fv Color.BLACK
                    (RBTree.node gk gv Color.RED gs fs) n) :=
                  ⟨fun hc => Color.noConfusion hc,
                    ⟨fun _ => ⟨hub, hrs1 rfl⟩, hnu, hnsib⟩, hn⟩
                have ht3ord : RBTree.Ordered (RBTree.node fk fv Color.BLACK
                    (RBTree.node gk gv Color.RED gs fs) n) :=
                  ⟨⟨hgkfk,
                      RBTree.allKeys_mono (fun x hx => lt_trans hx hgkfk) gs (hgdr rfl),
                      hdr rfl⟩,
                    RBTree.allKeys_mono (fun x hx => hx.2.1 rfl) n hkeys,
                    ⟨hgdr rfl,
                      RBTree.allKeys_mono (fun x hx => hx.2.1 rfl) fs hsks,
                      hou, hosib⟩,
                    hord⟩
                have ht3ki : nodeKeyInv (RBTree.node fk fv Color.BLACK
                    (RBTree.node gk gv Color.RED gs fs) n) :=
                  ⟨hvf, ⟨hvg, hku, hksib⟩, hkinv⟩
                have ht3keys : RBTree.allKeys (holeOk rest')
                    (RBTree.node fk fv Color.BLACK
                      (RBTree.node gk gv Color.RED gs fs) n) :=
                  ⟨hhks.2.2, ⟨hghk, hgsk, hsksR⟩, hkeysR⟩
                have hzrb := zipUp_rb rest' _ (h + 1) hchainR ht3noRR ht3bh (fun _ => rfl)
                refine ⟨_, hstep, hzrb.1, hzrb.2,
                  zipUp_ordered rest' _ hcordR ht3ord ht3keys,
                  zipUp_keyInv rest' _ hckeyR ht3ki,
                  zipUp_ne_nil rest' _ (by simp), ?_⟩
                exact zip_toList_congr rest' _
                  (plug (Frame.mk Dir.right gk gv Color.BLACK gs)
                    (plug (Frame.mk Dir.right fk fv Color.RED fs) n))
                  (by simp [plug, RBTree.toList])
              | left =>
                -- mirror of case 2 then 3: inner child: rotate right at p, then
                -- rotate left at g
                rcases n with _ | ⟨nk, nv, nc, nl, nr⟩
                · exact absurd rfl hnnil
                have hnc : nc = Color.RED := hroot
                subst hnc
                obtain ⟨hnC, hnl', hnr'⟩ := hn
                obtain ⟨a, hbnl, hbnr, ha⟩ := bhOpt_node_elim hb
                have ha2 : h = a := ha
                subst ha2
                obtain ⟨hordl, hordr, holn, horn⟩ := hord
                obtain ⟨hvn, hkil, hkir⟩ := hkinv
                obtain ⟨hknk, hknl, hknr⟩ := hkeys
                have hnkfk : nk < fk := hknk.1 rfl
                have hgknk : gk < nk := hknk.2.2.2.1 rfl
                have hstep : insertFix (RBTree.node nk nv Color.RED nl nr)
                    (Frame.mk Dir.left fk fv Color.RED fs ::
                     Frame.mk Dir.right gk gv Color.BLACK gs :: rest') =
                    some (zipUp (RBTree.node nk nv Color.BLACK
                      (RBTree.node gk gv Color.RED gs nl)
                      (RBTree.node fk fv Color.RED nr fs)) rest') := by
                  rcases gs with _ | ⟨uk, uv, uc, ul, ur⟩
                  · rfl
                  · cases uc
                    · exact Color.noConfusion hub
                    · rfl
                have hAbh : bhOpt (RBTree.node gk gv Color.RED gs nl) = some h :=
                  bhOpt_node_intro hbu hbnl
                have hBbh : bhOpt (RBTree.node fk fv Color.RED nr fs) = some h :=
                  bhOpt_node_intro hbnr hbsib
                have ht3bh : bhOpt (RBTree.node nk nv Color.BLACK
                    (RBTree.node gk gv Color.RED gs nl)
                    (RBTree.node fk fv Color.RED nr fs)) = some (h + 1) :=
                  bhOpt_node_intro hAbh hBbh
                have ht3noRR : noRR (RBTree.node nk nv Color.BLACK
                    (RBTree.node gk gv Color.RED gs nl)
                    (RBTree.node fk fv Color.RED nr fs)) :=
                  ⟨fun hc => Color.noConfusion hc,
                    ⟨fun _ => ⟨hub, (hnC rfl).1⟩, hnu, hnl'⟩,
                    ⟨fun _ => ⟨(hnC rfl).2, hrs1 rfl⟩, hnr', hnsib⟩⟩
                have ht3ord : RBTree.Ordered (RBTree.node nk nv Color.BLACK
                    (RBTree.node gk gv Color.RED gs nl)
                    (RBTree.node fk fv Color.RED nr fs)) :=
                  ⟨⟨hgknk,
                      RBTree.allKeys_mono (fun x hx => lt_trans hx hgknk) gs (hgdr rfl),
                      hordl⟩,
                    ⟨hnkfk, hordr,
                      RBTree.allKeys_mono (fun x hx => lt_trans hnkfk hx) fs (hdl rfl)⟩,
                    ⟨hgdr rfl,
                      RBTree.allKeys_mono (fun x hx => hx.2.2.2.1 rfl) nl hknl,
                      hou, holn⟩,
                    ⟨RBTree.allKeys_mono (fun x hx => hx.1 rfl) nr hknr,
                      hdl rfl, horn, hosib⟩⟩
                have ht3ki : nodeKeyInv (RBTree.node nk nv Color.BLACK
                    (RBTree.node gk gv Color.RED gs nl)
                    (RBTree.node fk fv Color.RED nr fs)) :=
                  ⟨hvn, ⟨hvg, hku, hkil⟩, ⟨hvf, hkir, hksib⟩⟩
                have ht3keys : RBTree.allKeys (holeOk rest')
                    (RBTree.node nk nv Color.BLACK
                      (RBTree.node gk gv Color.RED gs nl)
                      (RBTree.node fk fv Color.RED nr fs)) :=
                  ⟨hknk.2.2.2.2,
                    ⟨hghk, hgsk,
                      RBTree.allKeys_mono (fun x hx => hx.2.2.2.2) nl hknl⟩,
                    ⟨hhks.2.2,
                      RBTree.allKeys_mono (fun x hx => hx.2.2.2.2) nr hknr, hsksR⟩⟩
                have hzrb := zipUp_rb rest' _ (h + 1) hchainR ht3noRR ht3bh (fun _ => rfl)
                refine ⟨_, hstep, hzrb.1, hzrb.2,
                  zipUp_ordered rest' _ hcordR ht3ord ht3keys,
                  zipUp_keyInv rest' _ hckeyR ht3ki,
                  zipUp_ne_nil rest' _ (by simp), ?_⟩
                exact zip_toList_congr rest' _
                  (plug (Frame.mk Dir.right gk gv Color.BLACK gs)
                    (plug (Frame.mk Dir.left fk fv Color.RED fs)
                      (RBTree.node nk nv Color.RED nl nr)))
                  (by simp [plug, RBTree.toList])

theorem search_setBlack (t : RBTree) (key : String) :
    RedBlackTree.search (setBlack t) key = RedBlackTree.search t key := by
  cases t <;> rfl

theorem RBTree.allKeys_and {P Q : String → Prop} : ∀ t, RBTree.allKeys P t →
    RBTree.allKeys Q t → RBTree.allKeys (fun x => P x ∧ Q x) t
  | RBTree.nil, _, _ => trivial
  | RBTree.node k vs c l r, hp, hq =>
    ⟨⟨hp.1, hq.1⟩, RBTree.allKeys_and l hp.2.1 hq.2.1,
      RBTree.allKeys_and r hp.2.2 hq.2.2⟩

/-- Main lemma on the insert descent: starting anywhere on the descent path of
    a valid red-black tree t₀, the insert succeeds and the resulting tree is a
    valid red-black tree whose searches extend those of t₀ by exactly the
    inserted record at its own key. -/
theorem insertWalk_good (obj : Object) (t₀ : RBTree)
    (hroot₀ : rootColor t₀ = Color.BLACK) (hordT : RBTree.Ordered t₀)
    (hkiT : nodeKeyInv t₀) :
    ∀ (s : RBTree) (path : List Frame) (hs : Nat),
    noRR s → bhOpt s = some hs → RBTree.Ordered s → nodeKeyInv s →
    RBTree.allKeys (holeOk path) s →
    chainInv path hs → chainOrd path → chainKeyInv path →
    (headColor path = Color.RED → rootColor s = Color.BLACK) →
    holeOk path obj.name →
    zipUp s path = t₀ →
    ∃ t', insertWalk obj s path = some t' ∧ rootColor t' = Color.BLACK ∧
      noRR t' ∧ (bhOpt t').isSome ∧ RBTree.Ordered t' ∧ nodeKeyInv t' ∧
      ∀ key, RedBlackTree.search t' key =
        RedBlackTree.search t₀ key ++ (if obj.name = key then [obj] else []) := by
  intro s
  induction s with
  | nil =>
    intro path hs hn hb hord hkinv hkeys hchain hcord hckey hhead hobj hzip
    have hs0 : 0 = hs := Option.some.inj hb
    subst hs0
    obtain ⟨t'', hfix, hn'', hb'', hord'', hki'', hne'', htl''⟩ :=
      insertFix_good path.length path (le_refl _)
        (RBTree.node obj.name [obj] Color.RED RBTree.nil RBTree.nil) 0
        rfl
        ⟨fun _ => ⟨rfl, rfl⟩, trivial, trivial⟩
        rfl
        ⟨trivial, trivial, trivial, trivial⟩
        ⟨fun o ho => by rw [List.mem_singleton.mp ho], trivial, trivial⟩
        ⟨hobj, trivial, trivial⟩
        hchain hcord hckey
    refine ⟨setBlack t'', ?_, rootColor_setBlack t'' hne'', noRR_setBlack t'' hn'',
      bhOpt_setBlack t'' hb'', ordered_setBlack t'' hord'', keyInv_setBlack t'' hki'', ?_⟩
    · rw [show insertWalk obj RBTree.nil path =
        (insertFix (RBTree.node obj.name [obj] Color.RED RBTree.nil RBTree.nil)
          path).map setBlack from rfl, hfix]
      rfl
    · intro key
      rw [search_setBlack t'' key, RedBlackTree.search_eq_toList t'' hord'' hki'' key, htl'']
      obtain ⟨pre, post, hdec⟩ := zipUp_toList_decomp path
      have h1 : (zipUp (RBTree.node obj.name [obj] Color.RED RBTree.nil RBTree.nil)
          path).toList = pre ++ ([obj] ++ post) := by
        rw [hdec]
        simp [RBTree.toList]
      have h0 : t₀.toList = pre ++ post := by
        rw [← hzip, hdec]
        simp [RBTree.toList]
      have hsearch0 : RedBlackTree.search t₀ key = linearSearch (pre ++ post) key := by
        rw [RedBlackTree.search_eq_toList t₀ hordT hkiT key, h0]
      have hnone : linearSearch (pre ++ post) obj.name = [] := by
        rw [← h0, ← RedBlackTree.search_eq_toList t₀ hordT hkiT obj.name, ← hzip,
          search_zipUp_holeOk path RBTree.nil obj.name hobj]
        rfl
      rw [linearSearch_append] at hnone
      have hpre : linearSearch pre obj.name = [] := (List.append_eq_nil.mp hnone).1
      have hpost : linearSearch post obj.name = [] := (List.append_eq_nil.mp hnone).2
      by_cases hk : obj.name = key
      · subst hk
        rw [h1, hsearch0, linearSearch_append, linearSearch_append, hpre, hpost,
          linearSearch_append, hpre, hpost]
        simp [linearSearch]
      · rw [h1, hsearch0, linearSearch_append, linearSearch_append,
          linearSearch_append]
        have hone : linearSearch [obj] key = [] := by
          simp [linearSearch, hk]
        rw [hone]
        simp [hk]
  | node k vs c l r ihl ihr =>
    intro path hs hn hb hord hkinv hkeys hchain hcord hckey hhead hobj hzip
    obtain ⟨hnC, hnl, hnr⟩ := hn
    obtain ⟨a, hbl, hbr, ha⟩ := bhOpt_node_elim hb
    obtain ⟨hobl, hobr, holl, horr⟩ := hord
    obtain ⟨hvk, hkil, hkir⟩ := hkinv
    have hcHead : c = Color.RED → headColor path = Color.BLACK := by
      intro hc
      cases hp : headColor path
      · exact Color.noConfusion ((hhead hp).symm.trans hc)
      · rfl
    by_cases heq : obj.name = k
    · -- equal key: append to this node's values, no fixup
      have hwalk : insertWalk obj (RBTree.node k vs c l r) path =
          some (zipUp (RBTree.node k (vs ++ [obj]) c l r) path) := by
        rw [insertWalk.eq_def]
        simp [heq]
      have hn' : noRR (RBTree.node k (vs ++ [obj]) c l r) := ⟨hnC, hnl, hnr⟩
      have hb' : bhOpt (RBTree.node k (vs ++ [obj]) c l r) = some hs := hb
      have hord' : RBTree.Ordered (RBTree.node k (vs ++ [obj]) c l r) :=
        ⟨hobl, hobr, holl, horr⟩
      have hki' : nodeKeyInv (RBTree.node k (vs ++ [obj]) c l r) := by
        refine ⟨?_, hkil, hkir⟩
        intro o ho
        rcases List.mem_append.mp ho with ho | ho
        · exact hvk o ho
        · rw [List.mem_singleton.mp ho]
          exact heq
      have hkeys' : RBTree.allKeys (holeOk path) (RBTree.node k (vs ++ [obj]) c l r) :=
        hkeys
      have hz := zipUp_rb path (RBTree.node k (vs ++ [obj]) c l r) hs hchain hn' hb' hhead
      refine ⟨zipUp (RBTree.node k (vs ++ [obj]) c l r) path, hwalk, ?_, hz.1, hz.2,
        zipUp_ordered path _ hcord hord' hkeys', zipUp_keyInv path _ hckey hki', ?_⟩
      · rw [zipUp_rootColor_congr path (RBTree.node k (vs ++ [obj]) c l r)
          (RBTree.node k vs c l r) rfl, hzip]
        exact hroot₀
      · intro key
        by_cases hk : obj.name = key
        · have hks : holeOk path key := hk ▸ hobj
          have hkeq : key = k := by rw [← hk, heq]
          rw [search_zipUp_holeOk path _ key hks, ← hzip,
            search_zipUp_holeOk path _ key hks]
          simp only [RedBlackTree.search, if_pos hkeq, if_pos hk]
        · have hkk : ¬ key = k := fun hh => hk (by rw [heq, hh])
          have hbase : RedBlackTree.search (RBTree.node k (vs ++ [obj]) c l r) key =
              RedBlackTree.search (RBTree.node k vs c l r) key := by
            simp only [RedBlackTree.search, if_neg hkk]
          rw [search_zipUp_congr path _ _ key hbase, hzip]
          simp [hk]
    · by_cases hlt : obj.name < k
      · -- descend left
        have hstep : insertWalk obj (RBTree.node k vs c l r) path =
            insertWalk obj l (Frame.mk Dir.left k vs c r :: path) := by
          rw [insertWalk.eq_def]
          simp [heq, hlt]
        obtain ⟨t', hw, hcol', hn', hb', hord', hki', hsearch'⟩ :=
          ihl (Frame.mk Dir.left k vs c r :: path) a
            hnl hbl holl hkil
            (RBTree.allKeys_mono
              (fun x hx => ⟨fun _ => hx.1, fun hd => Dir.noConfusion hd, hx.2⟩) l
              (RBTree.allKeys_and l hobl hkeys.2.1))
            ⟨hnr, hbr, fun hc => (hnC hc).2, hcHead, by rw [← ha]; exact hchain⟩
            ⟨horr, fun _ => hobr, fun hd => Dir.noConfusion hd, hkeys.1, hkeys.2.2, hcord⟩
            ⟨hvk, hkir, hckey⟩
            (fun hc => (hnC hc).1)
            ⟨fun _ => hlt, fun hd => Dir.noConfusion hd, hobj⟩
            hzip
        exact ⟨t', by rw [hstep]; exact hw, hcol', hn', hb', hord', hki', hsearch'⟩
      · -- descend right
        have hgt : k < obj.name := lt_of_le_of_ne (not_lt.mp hlt) (Ne.symm heq)
        have hstep : insertWalk obj (RBTree.node k vs c l r) path =
            insertWalk obj r (Frame.mk Dir.right k vs c l :: path) := by
          rw [insertWalk.eq_def]
          simp [heq, hlt]
        obtain ⟨t', hw, hcol', hn', hb', hord', hki', hsearch'⟩ :=
          ihr (Frame.mk Dir.right k vs c l :: path) a
            hnr hbr horr hkir
            (RBTree.allKeys_mono
              (fun x hx => ⟨fun hd => Dir.noConfusion hd, fun _ => hx.1, hx.2⟩) r
              (RBTree.allKeys_and r hobr hkeys.2.2))
            ⟨hnl, hbl, fun hc => (hnC hc).1, hcHead, by rw [← ha]; exact hchain⟩
            ⟨holl, fun hd => Dir.noConfusion hd, fun _ => hobl, hkeys.1, hkeys.2.1, hcord⟩
            ⟨hvk, hkil, hckey⟩
            (fun hc => (hnC hc).2)
            ⟨fun hd => Dir.noConfusion hd, fun _ => hgt, hobj⟩
            hzip
        exact ⟨t', by rw [hstep]; exact hw, hcol', hn', hb', hord', hki', hsearch'⟩

/-- Validity bundle of the red-black tree: black root, no red-red edge,
    uniform black height, search-tree ordering, and node-key consistency. -/
def RBValid (t : RBTree) : Prop :=
  rootColor t = Color.BLACK ∧ noRR t ∧ (bhOpt t).isSome ∧
  RBTree.Ordered t ∧ nodeKeyInv t

theorem RedBlackTree.insert_good (t : RBTree) (obj : Object) (hv : RBValid t) :
    ∃ t', RedBlackTree.insert t obj = some t' ∧ RBValid t' ∧
      ∀ key, RedBlackTree.search t' key =
        RedBlackTree.search t key ++ (if obj.name = key then [obj] else []) := by
  obtain ⟨hc, hn, hb, ho, hk⟩ := hv
  cases t with
  | nil =>
    refine ⟨RBTree.node obj.name [obj] Color.BLACK RBTree.nil RBTree.nil, rfl,
      ⟨rfl, ⟨fun hcc => Color.noConfusion hcc, trivial, trivial⟩, rfl,
        ⟨trivial, trivial, trivial, trivial⟩,
        ⟨fun o ho' => by rw [List.mem_singleton.mp ho'], trivial, trivial⟩⟩, ?_⟩
    intro key
    by_cases hkk : obj.name = key
    · have hkeq : key = obj.name := hkk.symm
      simp only [RedBlackTree.search, if_pos hkeq, if_pos hkk]
      simp
    · have h2 : ¬ key = obj.name := fun hh => hkk hh.symm
      simp only [RedBlackTree.search, if_neg h2, if_neg hkk]
      simp
  | node k0 vs0 c0 l0 r0 =>
    obtain ⟨hs, hbs⟩ := Option.isSome_iff_exists.mp hb
    obtain ⟨t', hw, hcol', hn', hb', hord', hki', hsearch'⟩ :=
      insertWalk_good obj (RBTree.node k0 vs0 c0 l0 r0) hc ho hk
        (RBTree.node k0 vs0 c0 l0 r0) [] hs hn hbs ho hk
        (by
          have : ∀ u : RBTree, RBTree.allKeys (fun _ => True) u := by
            intro u
            induction u with
            | nil => trivial
            | node k1 v1 c1 l1 r1 ih1 ih2 => exact ⟨trivial, ih1, ih2⟩
          exact this _)
        trivial trivial trivial (fun _ => hc) trivial rfl
    exact ⟨t', hw, ⟨hcol', hn', hb', hord', hki'⟩, hsearch'⟩

theorem RedBlackTree.insertAll_good : ∀ (data : List Object) (t : RBTree),
    RBValid t →
    ∃ t', RedBlackTree.insertAll t data = some t' ∧ RBValid t' ∧
      ∀ key, RedBlackTree.search t' key =
        RedBlackTree.search t key ++ linearSearch data key := by
  intro data
  induction data with
  | nil =>
    intro t hv
    exact ⟨t, rfl, hv, fun key => by simp [linearSearch]⟩
  | cons o rest ih =>
    intro t hv
    obtain ⟨t1, hi, hv1, hs1⟩ := RedBlackTree.insert_good t o hv
    obtain ⟨t', ha, hv', hs'⟩ := ih t1 hv1
    refine ⟨t', ?_, hv', ?_⟩
    · rw [show RedBlackTree.insertAll t (o :: rest) =
        (match RedBlackTree.insert t o with
         | none => none
         | some t2 => RedBlackTree.insertAll t2 rest) from rfl, hi]
      exact ha
    · intro key
      rw [hs' key, hs1 key]
      by_cases h : o.name = key <;> simp [linearSearch, h, List.append_assoc]

theorem RedBlackTree.fromList_good (data : List Object) :
    ∃ t, RedBlackTree.fromList data = some t ∧ RBValid t ∧
      ∀ key, RedBlackTree.search t key = linearSearch data key := by
  have hvnil : RBValid RBTree.nil := ⟨rfl, trivial, rfl, trivial, trivial⟩
  obtain ⟨t, ha, hv, hs⟩ := RedBlackTree.insertAll_good data RBTree.nil hvnil
  exact ⟨t, ha, hv, fun key => by rw [hs key]; rfl⟩

/-- Rotations and recolorings of insertFix never change the in-order record
    sequence, for every input whatsoever on which the fixup succeeds. -/
theorem insertFix_toList : ∀ (N : Nat) (path : List Frame), path.length ≤ N →
    ∀ (n t' : RBTree), insertFix n path = some t' →
    t'.toList = (zipUp n path).toList := by
  intro N
  induction N with
  | zero =>
    intro path hlen n t' hfix
    have hpath : path = [] := List.eq_nil_of_length_eq_zero (Nat.le_zero.mp hlen)
    subst hpath
    have h2 : some n = some t' := hfix
    rw [← Option.some.inj h2]
    rfl
  | succ N ih =>
    intro path hlen n t' hfix
    cases path with
    | nil =>
      have h2 : some n = some t' := hfix
      rw [← Option.some.inj h2]
      rfl
    | cons f rest =>
      rcases f with ⟨fd, fk, fv, fc, fs⟩
      cases fc with
      | BLACK =>
        rw [insertFix.eq_def] at hfix
        simp only [if_true, Option.some.injEq] at hfix
        rw [← hfix]
      | RED =>
        cases rest with
        | nil =>
          have h2 : (none : Option RBTree) = some t' := hfix
          exact Option.noConfusion h2
        | cons g rest' =>
          rcases g with ⟨gd, gk, gv, gc, gs⟩
          have hlen' : rest'.length ≤ N := by
            simp only [List.length_cons] at hlen
            omega
          cases gd with
          | left =>
            rcases gs with _ | ⟨uk, uv, uc, ul, ur⟩
            · cases fd with
              | left =>
                have h2 : some (zipUp (RBTree.node fk fv Color.BLACK n
                    (RBTree.node gk gv Color.RED fs RBTree.nil)) rest') = some t' := hfix
                rw [← Option.some.inj h2]
                exact zip_toList_congr rest' _
                  (plug (Frame.mk Dir.left gk gv gc RBTree.nil)
                    (plug (Frame.mk Dir.left fk fv Color.RED fs) n))
                  (by simp [plug, RBTree.toList])
              | right =>
                rcases n with _ | ⟨nk, nv, nc, nl, nr⟩
                · have h2 : (none : Option RBTree) = some t' := hfix
                  exact Option.noConfusion h2
                · have h2 : some (zipUp (RBTree.node nk nv Color.BLACK
                      (RBTree.node fk fv Color.RED fs nl)
                      (RBTree.node gk gv Color.RED nr RBTree.nil)) rest') = some t' := hfix
                  rw [← Option.some.inj h2]
                  exact zip_toList_congr rest' _
                    (plug (Frame.mk Dir.left gk gv gc RBTree.nil)
                      (plug (Frame.mk Dir.right fk fv Color.RED fs)
                        (RBTree.node nk nv nc nl nr)))
                    (by simp [plug, RBTree.toList])
            · cases uc with
              | RED =>
                have h2 : insertFix (RBTree.node gk gv Color.RED
                    (plug (Frame.mk fd fk fv Color.BLACK fs) n)
                    (RBTree.node uk uv Color.BLACK ul ur)) rest' = some t' := hfix
                rw [ih rest' hlen' _ t' h2]
                exact zip_toList_congr rest' _
                  (plug (Frame.mk Dir.left gk gv gc (RBTree.node uk uv Color.RED ul ur))
                    (plug (Frame.mk fd fk fv Color.RED fs) n))
                  (by cases fd <;> simp [plug, RBTree.toList])
              | BLACK =>
                cases fd with
                | left =>
                  have h2 : some (zipUp (RBTree.node fk fv Color.BLACK n
                      (RBTree.node gk gv Color.RED fs
                        (RBTree.node uk uv Color.BLACK ul ur))) rest') = some t' := hfix
                  rw [← Option.some.inj h2]
                  exact zip_toList_congr rest' _
                    (plug (Frame.mk Dir.left gk gv gc (RBTree.node uk uv Color.BLACK ul ur))
                      (plug (Frame.mk Dir.left fk fv Color.RED fs) n))
                    (by simp [plug, RBTree.toList])
                | right =>
                  rcases n with _ | ⟨nk, nv, nc, nl, nr⟩
                  · have h2 : (none : Option RBTree) = some t' := hfix
                    exact Option.noConfusion h2
                  · have h2 : some (zipUp (RBTree.node nk nv Color.BLACK
                        (RBTree.node fk fv Color.RED fs nl)
                        (RBTree.node gk gv Color.RED nr
                          (RBTree.node uk uv Color.BLACK ul ur))) rest') = some t' := hfix
                    rw [← Option.some.inj h2]
                    exact zip_toList_congr rest' _
                      (plug (Frame.mk Dir.left gk gv gc
                        (RBTree.node uk uv Color.BLACK ul ur))
                        (plug (Frame.mk Dir.right fk fv Color.RED fs)
                          (RBTree.node nk nv nc nl nr)))
                      (by simp [plug, RBTree.toList])
          | right =>
            rcases gs with _ | ⟨uk, uv, uc, ul, ur⟩
            · cases fd with
              | right =>
                have h2 : some (zipUp (RBTree.node fk fv Color.BLACK
                    (RBTree.node gk gv Color.RED RBTree.nil fs) n) rest') = some t' := hfix
                rw [← Option.some.inj h2]
                exact zip_toList_congr rest' _
                  (plug (Frame.mk Dir.right gk gv gc RBTree.nil)
                    (plug (Frame.mk Dir.right fk fv Color.RED fs) n))
                  (by simp [plug, RBTree.toList])
              | left =>
                rcases n with _ | ⟨nk, nv, nc, nl, nr⟩
                · have h2 : (none : Option RBTree) = some t' := hfix
                  exact Option.noConfusion h2
                · have h2 : some (zipUp (RBTree.node nk nv Color.BLACK
                      (RBTree.node gk gv Color.RED RBTree.nil nl)
                      (RBTree.node fk fv Color.RED nr fs)) rest') = some t' := hfix
                  rw [← Option.some.inj h2]
                  exact zip_toList_congr rest' _
                    (plug (Frame.mk Dir.right gk gv gc RBTree.nil)
                      (plug (Frame.mk Dir.left fk fv Color.RED fs)
                        (RBTree.node nk nv nc nl nr)))
                    (by simp [plug, RBTree.toList])
            · cases uc with
              | RED =>
                have h2 : insertFix (RBTree.node gk gv Color.RED
                    (RBTree.node uk uv Color.BLACK ul ur)
                    (plug (Frame.mk fd fk fv Color.BLACK fs) n)) rest' = some t' := hfix
                rw [ih rest' hlen' _ t' h2]
                exact zip_toList_congr rest' _
                  (plug (Frame.mk Dir.right gk gv gc (RBTree.node uk uv Color.RED ul ur))
                    (plug (Frame.mk fd fk fv Color.RED fs) n))
                  (by cases fd <;> simp [plug, RBTree.toList])
              | BLACK =>
                cases fd with
                | right =>
                  have h2 : some (zipUp (RBTree.node fk fv Color.BLACK
                      (RBTree.node gk gv Color.RED
                        (RBTree.node uk uv Color.BLACK ul ur) fs) n) rest') = some t' := hfix
                  rw [← Option.some.inj h2]
                  exact zip_toList_congr rest' _
                    (plug (Frame.mk Dir.right gk gv gc
                      (RBTree.node uk uv Color.BLACK ul ur))
                      (plug (Frame.mk Dir.right fk fv Color.RED fs) n))
                    (by simp [plug, RBTree.toList])
                | left =>
                  rcases n with _ | ⟨nk, nv, nc, nl, nr⟩
                  · have h2 : (none : Option RBTree) = some t' := hfix
                    exact Option.noConfusion h2
                  · have h2 : some (zipUp (RBTree.node nk nv Color.BLACK
                        (RBTree.node gk gv Color.RED
                          (RBTree.node uk uv Color.BLACK ul ur) nl)
                        (RBTree.node fk fv Color.RED nr fs)) rest') = some t' := hfix
                    rw [← Option.some.inj h2]
                    exact zip_toList_congr rest' _
                      (plug (Frame.mk Dir.right gk gv gc
                        (RBTree.node uk uv Color.BLACK ul ur))
                        (plug (Frame.mk Dir.left fk fv Color.RED fs)
                          (RBTree.node nk nv nc nl nr)))
                      (by simp [plug, RBTree.toList])

/-- One successful insert, dissected: the record is appended to the bucket the
    name hashes to, unconditionally; the collision counter grows by one exactly
    when that bucket was non-empty. -/
theorem HashTable.insert_step (ht : HashTable) (obj : Object) (ht' : HashTable)
    (h : HashTable.insert ht obj = some ht') :
    ∃ idx, hashFunctionChecked ht.size obj.name = some idx ∧
      idx < ht.buckets.length ∧
      ht'.size = ht.size ∧
      ht'.buckets = ht.buckets.set idx (ht.buckets.getD idx [] ++ [obj]) ∧
      ((ht.buckets.getD idx []).isEmpty →
        ht'.getCollisionCount = ht.getCollisionCount) ∧
      (¬ (ht.buckets.getD idx []).isEmpty →
        ht'.getCollisionCount = ht.getCollisionCount + 1) := by
  unfold HashTable.insert at h
  split at h
  · exact Option.noConfusion h
  · rename_i idx hidx
    split at h
    · rename_i hlt
      have h2 := Option.some.inj h
      refine ⟨idx, hidx, hlt, ?_, ?_, ?_, ?_⟩
      · rw [← h2]
      · rw [← h2]
      · intro hemp
        rw [← h2]
        simp only [HashTable.getCollisionCount, if_pos hemp]
      · intro hemp
        rw [← h2]
        simp only [HashTable.getCollisionCount, if_neg hemp]
    · exact Option.noConfusion h

theorem HashTable.insert_isSome (ht : HashTable) (obj : Object) (hs : 1 ≤ ht.size)
    (hlen : ht.buckets.length = ht.size) : (HashTable.insert ht obj).isSome := by
  rw [HashTable.insert_eq ht obj hs hlen]
  rfl

theorem HashTable.search_isSome (ht : HashTable) (key : String) (hs : 1 ≤ ht.size)
    (hlen : ht.buckets.length = ht.size) : (HashTable.search ht key).isSome := by
  rw [HashTable.search_eq ht key hs hlen]
  rfl

/-- Inserting and then searching the same key reaches the same bucket, so the
    fresh record is among the results. -/
theorem HashTable.insert_then_search (ht : HashTable) (obj : Object) (ht' : HashTable)
    (h : HashTable.insert ht obj = some ht') :
    ∃ res, HashTable.search ht' obj.name = some res ∧ obj ∈ res := by
  obtain ⟨idx, hidx, hlt, hsz, hbk, _, _⟩ := HashTable.insert_step ht obj ht' h
  refine ⟨linearSearch (ht'.buckets.getD idx []) obj.name, ?_, ?_⟩
  · unfold HashTable.search
    rw [hsz, hidx]
    have hlt' : idx < ht'.buckets.length := by
      rw [hbk, List.length_set]
      exact hlt
    show (if idx < ht'.buckets.length then
      some (linearSearch (ht'.buckets.getD idx []) obj.name) else none) =
      some (linearSearch (ht'.buckets.getD idx []) obj.name)
    rw [if_pos hlt']
  · rw [hbk, getD_set_self _ _ _ hlt, linearSearch_append]
    have : linearSearch [obj] obj.name = [obj] := by simp [linearSearch]
    rw [this]
    simp

/-- The collision count of a same-bucket record list: the first insert into the
    fresh table finds an empty bucket, every later one a non-empty one. -/
theorem HashTable.fromList_collisions (nb : Nat) (hnb : 1 ≤ nb) (i : Nat)
    (r : Object) (rest : List Object)
    (hall : ∀ x ∈ r :: rest, HashTable.hashFunction nb x.name = i) :
    ∃ ht, HashTable.fromList nb (r :: rest) = some ht ∧
      ht.getCollisionCount = rest.length := by
  have hri : HashTable.hashFunction nb r.name = i := hall r (by simp)
  have hnewlen : (HashTable.new nb).buckets.length = (HashTable.new nb).size := by
    simp [HashTable.new]
  have hins := HashTable.insert_eq (HashTable.new nb) r hnb hnewlen
  have hempty : ((HashTable.new nb).buckets.getD
      (HashTable.hashFunction (HashTable.new nb).size r.name) []) = [] :=
    getD_replicate nb _
  rw [hempty] at hins
  simp only [List.isEmpty_nil, if_pos rfl] at hins
  set ht1 : HashTable := HashTable.mk (HashTable.new nb).size
    ((HashTable.new nb).buckets.set
      (HashTable.hashFunction (HashTable.new nb).size r.name) ([] ++ [r]))
    (HashTable.new nb).collisionCount with hht1
  have h1size : ht1.size = nb := rfl
  have h1len : ht1.buckets.length = ht1.size := by
    simp [hht1, List.length_set, HashTable.new]
  have hidxlt : HashTable.hashFunction nb r.name < nb := hashFunction_lt nb r.name hnb
  have h1bucket : ht1.buckets.getD i [] = [r] := by
    simp only [hht1]
    rw [← hri]
    exact getD_set_self _ _ _ (by simp [HashTable.new]; exact hidxlt)
  have h1ne : ¬ (ht1.buckets.getD i []).isEmpty := by
    rw [h1bucket]
    simp
  obtain ⟨ht', hall', hcc⟩ := HashTable.insertAll_collide rest i ht1
    (by rw [h1size]; exact hnb) h1len
    (fun x hx => by rw [h1size]; exact hall x (by simp [hx])) h1ne
  refine ⟨ht', ?_, ?_⟩
  · rw [show HashTable.fromList nb (r :: rest) =
      (match HashTable.insert (HashTable.new nb) r with
       | none => none
       | some ht2 => HashTable.insertAll ht2 rest) from rfl, hins]
    exact hall'
  · rw [HashTable.getCollisionCount, hcc]
    simp [hht1, HashTable.new]

/-- Inserting records that all carry the same key into a single-node black
    tree appends them to that node, creating no new node and no rotation. -/
theorem RedBlackTree.insertAll_one_key (key : String) : ∀ (rs : List Object),
    (∀ x ∈ rs, x.name = key) → ∀ vs,
    RedBlackTree.insertAll (RBTree.node key vs Color.BLACK RBTree.nil RBTree.nil) rs =
      some (RBTree.node key (vs ++ rs) Color.BLACK RBTree.nil RBTree.nil) := by
  intro rs
  induction rs with
  | nil =>
    intro _ vs
    simp [RedBlackTree.insertAll]
  | cons x rest ih =>
    intro hall vs
    have hx : x.name = key := hall x (by simp)
    have hins : RedBlackTree.insert
        (RBTree.node key vs Color.BLACK RBTree.nil RBTree.nil) x =
        some (RBTree.node key (vs ++ [x]) Color.BLACK RBTree.nil RBTree.nil) := by
      rw [show RedBlackTree.insert (RBTree.node key vs Color.BLACK RBTree.nil RBTree.nil) x =
        insertWalk x (RBTree.node key vs Color.BLACK RBTree.nil RBTree.nil) [] from rfl,
        insertWalk.eq_def]
      simp [hx, zipUp]
    rw [show RedBlackTree.insertAll
        (RBTree.node key vs Color.BLACK RBTree.nil RBTree.nil) (x :: rest) =
      (match RedBlackTree.insert (RBTree.node key vs Color.BLACK RBTree.nil RBTree.nil) x with
       | none => none
       | some t2 => RedBlackTree.insertAll t2 rest) from rfl, hins]
    show RedBlackTree.insertAll
        (RBTree.node key (vs ++ [x]) Color.BLACK RBTree.nil RBTree.nil) rest =
      some (RBTree.node key (vs ++ x :: rest) Color.BLACK RBTree.nil RBTree.nil)
    rw [ih (fun y hy => hall y (by simp [hy])) (vs ++ [x])]
    simp

theorem RedBlackTree.fromList_one_key (key : String) (r : Object) (rest : List Object)
    (hr : r.name = key) (hrest : ∀ x ∈ rest, x.name = key) :
    RedBlackTree.fromList (r :: rest) =
      some (RBTree.node key (r :: rest) Color.BLACK RBTree.nil RBTree.nil) := by
  have h1 : RedBlackTree.insert RBTree.nil r =
      some (RBTree.node r.name [r] Color.BLACK RBTree.nil RBTree.nil) := rfl
  rw [hr] at h1
  rw [show RedBlackTree.fromList (r :: rest) =
    (match RedBlackTree.insert RBTree.nil r with
     | none => none
     | some t2 => RedBlackTree.insertAll t2 rest) from rfl, h1]
  show RedBlackTree.insertAll (RBTree.node key [r] Color.BLACK RBTree.nil RBTree.nil) rest =
    some (RBTree.node key (r :: rest) Color.BLACK RBTree.nil RBTree.nil)
  rw [RedBlackTree.insertAll_one_key key rest hrest [r]]
  simp

theorem BinarySearchTree.fromList_same_key (key : String) (r : Object)
    (rest : List Object) (hr : r.name = key) (hrest : ∀ x ∈ rest, x.name = key) :
    BinarySearchTree.fromList (r :: rest) =
      BSTree.node key (r :: rest) BSTree.nil BSTree.nil := by
  have h1 : BinarySearchTree.insert BSTree.nil r =
      BSTree.node r.name [r] BSTree.nil BSTree.nil := rfl
  rw [show BinarySearchTree.fromList (r :: rest) =
    BinarySearchTree.insertAll (BinarySearchTree.insert BSTree.nil r) rest from rfl, h1, hr,
    BinarySearchTree.insertAll_same_key key rest hrest [r]]
  simp

/-- C1: after every sequence of inserts into the Balanced Tree the red-black
    invariants hold: the root is BLACK, no RED node has a RED child, and the
    black height is uniform over all root-to-nil paths.  (New nodes are
    attached RED by insertWalk and fixed up immediately by insertFix.) -/
theorem C1_rbt_invariants (data : List Object) :
    ∃ t, RedBlackTree.fromList data = some t ∧ rootColor t = Color.BLACK ∧
      noRR t ∧ (bhOpt t).isSome := by
  obtain ⟨t, ha, hv, _⟩ := RedBlackTree.fromList_good data
  exact ⟨t, ha, hv.1, hv.2.1, hv.2.2.1⟩

/-- C2: after any sequence of inserts both tree variants satisfy the
    binary-search-tree ordering invariant, and the rotations of the red-black
    fixup never change the relative key order: whenever insertFix succeeds, the
    in-order record sequence equals that of the plain rebuild. -/
theorem C2_bst_ordering (data : List Object) :
    BSTree.Ordered (BinarySearchTree.fromList data) ∧
    (∃ t, RedBlackTree.fromList data = some t ∧ RBTree.Ordered t) ∧
    (∀ (n : RBTree) (path : List Frame) (t' : RBTree),
      insertFix n path = some t' → t'.toList = (zipUp n path).toList) := by
  refine ⟨BSTree.ordered_insertAll data BSTree.nil trivial, ?_, ?_⟩
  · obtain ⟨t, ha, hv, _⟩ := RedBlackTree.fromList_good data
    exact ⟨t, ha, hv.2.2.2.1⟩
  · intro n path t' hfix
    exact insertFix_toList path.length path (le_refl _) n t' hfix

theorem C2_bst_ordering_witness :
    (RBTree.node "a" ([] : List Object) Color.RED RBTree.nil RBTree.nil).toList =
      (zipUp (RBTree.node "a" ([] : List Object) Color.RED RBTree.nil RBTree.nil)
        []).toList :=
  (C2_bst_ordering []).2.2
    (RBTree.node "a" ([] : List Object) Color.RED RBTree.nil RBTree.nil) []
    (RBTree.node "a" ([] : List Object) Color.RED RBTree.nil RBTree.nil) rfl

/-- C3: inserting N records sharing one key and then searching that key
    returns exactly those N records, in insertion order, in every structure;
    in both trees the records are appended to one single node (numNodes = 1),
    never to a second node with the same key. -/
theorem C3_multivalue (key : String) (rs : List Object)
    (hall : ∀ r ∈ rs, r.name = key) :
    BinarySearchTree.search (BinarySearchTree.fromList rs) key = rs ∧
    (∃ t, RedBlackTree.fromList rs = some t ∧ RedBlackTree.search t key = rs ∧
      (rs ≠ [] → RBTree.numNodes t = 1)) ∧
    (rs ≠ [] → BSTree.numNodes (BinarySearchTree.fromList rs) = 1) ∧
    (∀ nb, 1 ≤ nb → ∃ ht, HashTable.fromList nb rs = some ht ∧
      HashTable.search ht key = some rs) := by
  have hlin : linearSearch rs key = rs := linearSearch_eq_self rs key hall
  refine ⟨?_, ?_, ?_, ?_⟩
  · rw [BinarySearchTree.search_fromList, hlin]
  · obtain ⟨t, ha, hv, hs⟩ := RedBlackTree.fromList_good rs
    refine ⟨t, ha, by rw [hs key, hlin], ?_⟩
    intro hne
    cases rs with
    | nil => exact absurd rfl hne
    | cons r rest =>
      rw [RedBlackTree.fromList_one_key key r rest (hall r (by simp))
        (fun x hx => hall x (by simp [hx]))] at ha
      rw [← Option.some.inj ha]
      rfl
  · intro hne
    cases rs with
    | nil => exact absurd rfl hne
    | cons r rest =>
      rw [BinarySearchTree.fromList_same_key key r rest (hall r (by simp))
        (fun x hx => hall x (by simp [hx]))]
      rfl
  · intro nb hnb
    obtain ⟨ht, hh, hs⟩ := HashTable.fromList_search nb hnb rs key
    exact ⟨ht, hh, by rw [hs, hlin]⟩

theorem C3_multivalue_witness :
    BinarySearchTree.search (BinarySearchTree.fromList [Object.mk 1 "a" 0]) "a" =
      [Object.mk 1 "a" 0] :=
  (C3_multivalue "a" [Object.mk 1 "a" 0] (by decide)).1

/-- C4: for every record set and key, the searches of the Ordered Tree, the
    Balanced Tree and the Hash Index agree with the Linear Scan — here even as
    identical record lists, which is stronger than the claimed multiset
    equality (the Hash Index also preserves insertion order per key). -/
theorem C4_cross_structure (data : List Object) (key : String) (nb : Nat)
    (hnb : 1 ≤ nb) :
    BinarySearchTree.search (BinarySearchTree.fromList data) key =
      linearSearch data key ∧
    (∃ t, RedBlackTree.fromList data = some t ∧
      RedBlackTree.search t key = linearSearch data key) ∧
    (∃ ht, HashTable.fromList nb data = some ht ∧
      HashTable.search ht key = some (linearSearch data key)) := by
  refine ⟨BinarySearchTree.search_fromList data key, ?_,
    HashTable.fromList_search nb hnb data key⟩
  obtain ⟨t, ha, _, hs⟩ := RedBlackTree.fromList_good data
  exact ⟨t, ha, hs key⟩

theorem C4_cross_structure_witness :
    BinarySearchTree.search (BinarySearchTree.fromList []) "a" =
      linearSearch [] "a" :=
  (C4_cross_structure [] "a" 1 (by decide)).1

/-- C5 counterexample: the constructor accepts bucket count 0 without any
    error (it has no failure path), and the divide-by-zero failure surfaces
    only at the first insert or search — the claim's fail-fast construction
    does not happen. -/
theorem C5_zero_buckets_counterexample :
    HashTable.construct 0 = Except.ok (HashTable.new 0) ∧
    HashTable.insert (HashTable.new 0) (Object.mk 1 "a" 0) = none ∧
    HashTable.search (HashTable.new 0) "a" = none := by
  exact ⟨rfl, rfl, rfl⟩

/-- C5 amended: construction succeeds for every bucket count including 0;
    with 0 buckets the failure (hash modulo 0) occurs at the first insert or
    search, not at construction; for every bucket count ≥ 1 construction and
    subsequent operations succeed. -/
theorem C5_construction_behavior :
    (∀ n : Nat, HashTable.construct n = Except.ok (HashTable.new n)) ∧
    (∀ obj, HashTable.insert (HashTable.new 0) obj = none) ∧
    (∀ key, HashTable.search (HashTable.new 0) key = none) ∧
    (∀ n : Nat, 1 ≤ n → ∀ obj key,
      (HashTable.insert (HashTable.new n) obj).isSome ∧
      (HashTable.search (HashTable.new n) key).isSome) := by
  refine ⟨fun n => rfl, fun obj => rfl, fun key => rfl, ?_⟩
  intro n hn obj key
  constructor
  · exact HashTable.insert_isSome _ obj hn (by simp [HashTable.new])
  · exact HashTable.search_isSome _ key hn (by simp [HashTable.new])

theorem C5_construction_behavior_witness :
    (HashTable.insert (HashTable.new 1) (Object.mk 1 "a" 0)).isSome ∧
    (HashTable.search (HashTable.new 1) "a").isSome :=
  C5_construction_behavior.2.2.2 1 (by decide) (Object.mk 1 "a" 0) "a"

/-- C6: the collision counter increments on an insert exactly when the target
    bucket is already non-empty, the record is appended unconditionally, and
    inserting a non-empty list of records that all hash to one bucket of a
    fresh table yields collisionCount = count - 1. -/
theorem C6_collision_counting (nb : Nat) (hnb : 1 ≤ nb) (i : Nat) (r : Object)
    (rest : List Object)
    (hall : ∀ x ∈ r :: rest, HashTable.hashFunction nb x.name = i) :
    (∃ ht, HashTable.fromList nb (r :: rest) = some ht ∧
      ht.getCollisionCount = (r :: rest).length - 1) ∧
    (∀ (ht : HashTable) (obj : Object) (ht' : HashTable),
      HashTable.insert ht obj = some ht' →
      ∃ idx, hashFunctionChecked ht.size obj.name = some idx ∧
        ht'.buckets = ht.buckets.set idx (ht.buckets.getD idx [] ++ [obj]) ∧
        ((ht.buckets.getD idx []).isEmpty →
          ht'.getCollisionCount = ht.getCollisionCount) ∧
        (¬ (ht.buckets.getD idx []).isEmpty →
          ht'.getCollisionCount = ht.getCollisionCount + 1)) := by
  constructor
  · obtain ⟨ht, hh, hc⟩ := HashTable.fromList_collisions nb hnb i r rest hall
    exact ⟨ht, hh, by rw [hc]; simp⟩
  · intro ht obj ht' h
    obtain ⟨idx, h1, hlt, hsz, hbk, h5, h6⟩ := HashTable.insert_step ht obj ht' h
    exact ⟨idx, h1, hbk, h5, h6⟩

theorem C6_collision_counting_witness :
    ∃ ht, HashTable.fromList 1 [Object.mk 1 "" 0] = some ht ∧
      ht.getCollisionCount = ([Object.mk 1 "" 0]).length - 1 :=
  (C6_collision_counting 1 (by decide) (HashTable.hashFunction 1 "")
    (Object.mk 1 "" 0) []
    (fun x hx => by
      have hx2 := List.mem_singleton.mp hx
      subst hx2
      rfl)).1

/-- C7: the hash function equals the specification's reference definition
    (per-character modulus in a 64-bit wrapping accumulator); in the
    no-overflow regime it also equals the pure per-character recurrence; and
    insert and search map a key to the same bucket, so a freshly inserted
    record is found by a search for its key. -/
theorem C7_hash_function_reference (nb : Nat) (key : String) (hnb : 1 ≤ nb) :
    HashTable.hashFunction nb key = specHash nb key ∧
    (131 * nb + 125 ≤ UINT64 → HashTable.hashFunction nb key = pureHash nb key) ∧
    (∀ (ht : HashTable) (obj : Object) (ht' : HashTable),
      HashTable.insert ht obj = some ht' →
      ∃ res, HashTable.search ht' obj.name = some res ∧ obj ∈ res) :=
  ⟨hashFunction_eq_specHash nb key,
    fun hsmall => hashFunction_eq_pure nb key hnb hsmall,
    fun ht obj ht' h => HashTable.insert_then_search ht obj ht' h⟩

theorem C7_hash_function_reference_witness :
    HashTable.hashFunction 1 "" = specHash 1 "" :=
  (C7_hash_function_reference 1 "" (by decide)).1

/-- C8: a search whose key matches no stored record is a normal outcome that
    returns the empty sequence in every structure — in particular on the empty
    trees — and insert cannot fail (the hash insert succeeds on every
    well-formed table). -/
theorem C8_not_found_empty (data : List Object) (key : String) (nb : Nat)
    (hnb : 1 ≤ nb) (hnone : ∀ r ∈ data, ¬ r.name = key) :
    BinarySearchTree.search BSTree.nil key = [] ∧
    RedBlackTree.search RBTree.nil key = [] ∧
    linearSearch data key = [] ∧
    BinarySearchTree.search (BinarySearchTree.fromList data) key = [] ∧
    (∃ t, RedBlackTree.fromList data = some t ∧ RedBlackTree.search t key = []) ∧
    (∃ ht, HashTable.fromList nb data = some ht ∧
      HashTable.search ht key = some []) ∧
    (∀ (ht : HashTable) (obj : Object), 1 ≤ ht.size →
      ht.buckets.length = ht.size → (HashTable.insert ht obj).isSome) := by
  have hlin : linearSearch data key = [] := linearSearch_eq_nil data key hnone
  refine ⟨rfl, rfl, hlin, ?_, ?_, ?_, ?_⟩
  · rw [BinarySearchTree.search_fromList, hlin]
  · obtain ⟨t, ha, _, hs⟩ := RedBlackTree.fromList_good data
    exact ⟨t, ha, by rw [hs key, hlin]⟩
  · obtain ⟨ht, hh, hs⟩ := HashTable.fromList_search nb hnb data key
    exact ⟨ht, hh, by rw [hs, hlin]⟩
  · intro ht obj hs hlen
    exact HashTable.insert_isSome ht obj hs hlen

theorem C8_not_found_empty_witness :
    BinarySearchTree.search (BinarySearchTree.fromList []) "a" = [] :=
  (C8_not_found_empty [] "a" 1 (by decide) (by simp)).2.2.2.1

/-- C9: for every bucket count ≥ 1 the hash function returns an index strictly
    below the bucket count, so the bucket accesses of insert and search are in
    bounds and both operations succeed on every well-formed table. -/
theorem C9_hash_in_bounds (nb : Nat) (key : String) (hnb : 1 ≤ nb) :
    HashTable.hashFunction nb key < nb ∧
    (∀ (ht : HashTable) (obj : Object), ht.size = nb → ht.buckets.length = nb →
      (HashTable.insert ht obj).isSome) ∧
    (∀ ht : HashTable, ht.size = nb → ht.buckets.length = nb →
      (HashTable.search ht key).isSome) := by
  refine ⟨hashFunction_lt nb key hnb, ?_, ?_⟩
  · intro ht obj hsz hlen
    exact HashTable.insert_isSome ht obj (by omega) (by rw [hlen, hsz])
  · intro ht hsz hlen
    exact HashTable.search_isSome ht key (by omega) (by rw [hlen, hsz])

theorem C9_hash_in_bounds_witness : HashTable.hashFunction 1 "" < 1 :=
  (C9_hash_in_bounds 1 "" (by decide)).1

/-- C10: over every insert sequence the fixup loop always finds a valid
    grandparent and a valid node to rotate around: the embedded insert returns
    none exactly where the C++ insertFix would dereference a null pointer (the
    grandparent of a red root, or a rotation around a null current node), and
    the fold over any record list never returns none. -/
theorem C10_insertFix_grandparent (data : List Object) :
    (RedBlackTree.fromList data).isSome := by
  obtain ⟨t, ha, _, _⟩ := RedBlackTree.fromList_good data
  rw [ha]
  rfl
